import Mathlib

/-!
Verification of the spack CI pipeline-graph synthesis engine against its
natural-language specification.  The definitions below are shallow embeddings
of the Python source in `lib/spack/spack/ci/common.py`,
`lib/spack/spack/ci/gitlab.py` and `lib/spack/spack/schema/__init__.py`.
-/

/-- A configuration key as produced by spack's YAML loader: the key name plus
the explicit merge-directive flags (`::` override, `+:` prepend, `-:` append)
that `spack.schema.override`, `_prepend` and `_append` read off the key object.
Key equality (Python `sk in dest`) compares only the name. -/
structure YKey where
  name : String
  override : Bool := false
  prepend : Bool := false
  append : Bool := false
deriving DecidableEq, Repr

/-- A YAML-ish value tree: the data manipulated by `spack.schema.merge_yaml`
(Python `None`, strings, booleans, integers, lists and dicts). -/
inductive Yaml where
  | null : Yaml
  | s (v : String) : Yaml
  | b (v : Bool) : Yaml
  | i (v : Int) : Yaml
  | seq (xs : List Yaml) : Yaml
  | map (es : List (YKey × Yaml)) : Yaml

mutual

/-- Structural equality of Yaml values: Python `==` on the corresponding
`None`/`str`/`bool`/`int`/`list`/`dict` trees. -/
def yeq : Yaml → Yaml → Bool
  | .null, .null => true
  | .s a, .s c => a == c
  | .b a, .b c => a == c
  | .i a, .i c => a == c
  | .seq a, .seq c => yeqList a c
  | .map a, .map c => yeqEntries a c
  | _, _ => false
termination_by y _ => sizeOf y
decreasing_by all_goals simp_wf

/-- Structural equality of Yaml lists (elementwise Python `==`). -/
def yeqList : List Yaml → List Yaml → Bool
  | [], [] => true
  | x :: xs, y :: ys => yeq x y && yeqList xs ys
  | _, _ => false
termination_by l _ => sizeOf l
decreasing_by all_goals simp_wf <;> omega

/-- Structural equality of Yaml dict entry lists (keys compare by full key,
values by Python `==`). -/
def yeqEntries : List (YKey × Yaml) → List (YKey × Yaml) → Bool
  | [], [] => true
  | (k, v) :: xs, (k', v') :: ys => k == k' && yeq v v' && yeqEntries xs ys
  | _, _ => false
termination_by l _ => sizeOf l
decreasing_by all_goals simp_wf <;> omega

end

abbrev Entries := List (YKey × Yaml)

/-- First value stored under a key of the given name (Python `dest[sk]` /
`dest.pop(sk, None)` lookup part; dict keys are unique). -/
def lookupName : Entries → String → Option Yaml
  | [], _ => none
  | (key, v) :: rest, k => if key.name = k then some v else lookupName rest k

/-- Remove the first entry with the given name (Python `dest.pop(sk, ...)`
removal part). -/
def eraseName : Entries → String → Entries
  | [], _ => []
  | (key, v) :: rest, k => if key.name = k then rest else (key, v) :: eraseName rest k

/-- Python `sk in dest` for a dict: membership by key name. -/
def containsName (l : Entries) (k : String) : Bool :=
  l.any (fun p => p.1.name = k)

/-- Python `dest_keys = [dk for dk in dest.keys() if dk not in source]`
(`merge_yaml`, dict case). -/
def destOnlyKeys (d s : Entries) : Entries :=
  d.filter (fun p => ! containsName s p.1.name)

/-- Python `dest[dk] = dest.pop(dk)`: move the entry of that key to the end. -/
def moveToEnd (l : Entries) (key : YKey) : Entries :=
  eraseName l key.name ++ [(key, (lookupName l key.name).getD .null)]

/-- Python `for dk in dest_keys: dest[dk] = dest.pop(dk)` (`merge_yaml`,
dict case, reinsertion loop). -/
def reinsertDestKeys (d s : Entries) (looped : Entries) : Entries :=
  (destOnlyKeys d s).foldl (fun acc p => moveToEnd acc p.1) looped

mutual

/-- Shallow embedding of `spack.schema.merge_yaml(dest, source, prepend, append)`:
entries in `source` take precedence over `dest`; `None` source erases; lists
concatenate source-first (source-last when `append`), dropping dest elements
that occur in source; dicts merge per key under the key's directive flags;
strings concatenate under prepend/append, otherwise source replaces dest. -/
def merge_yaml (dest source : Yaml) (pre app : Bool) : Yaml :=
  match dest, source with
  | _, .null => .null
  | .seq d, .seq s =>
    if app then .seq (d.filter (fun x => ¬ s.any (yeq x)) ++ s)
    else .seq (s ++ d.filter (fun x => ¬ s.any (yeq x)))
  | .map d, .map s => .map (reinsertDestKeys d s (mergeLoop d s))
  | .s d, .s sv => if pre then .s (sv ++ d) else if app then .s (d ++ sv) else .s sv
  | _, _ => source
termination_by sizeOf source
decreasing_by all_goals simp_wf

/-- Python `for sk, sv in source.items(): ...` loop of `merge_yaml`'s dict
case: pop the old dest value, recursively merge it with the source value
(unless the key is new or tagged override, in which case the source value
replaces it), and store the result under the source key at the end. -/
def mergeLoop (d : Entries) (s : Entries) : Entries :=
  match s with
  | [] => d
  | (sk, sv) :: rest =>
    let mrg := containsName d sk.name
    let old := lookupName d sk.name
    let d' := eraseName d sk.name
    let newv :=
      if mrg ∧ ¬ sk.override then merge_yaml (old.getD .null) sv sk.prepend sk.append
      else sv
    mergeLoop (d' ++ [(sk, newv)]) rest
termination_by sizeOf s
decreasing_by all_goals simp_wf <;> omega

end

/-- The list of key names of a dict, in iteration order. -/
def entryNames (l : Entries) : List String := l.map (fun p => p.1.name)

/-- The value `merge_yaml`'s dict loop stores under a source key: if the key
already exists in dest and is not tagged override, the recursive merge of the
old dest value with the source value under the key's directives; otherwise
the source value itself. -/
def resolveEntry (d : Entries) (sk : YKey) (sv : Yaml) : Yaml :=
  match lookupName d sk.name with
  | some old => if sk.override then sv else merge_yaml old sv sk.prepend sk.append
  | none => sv

theorem containsName_eq_isSome (l : Entries) (k : String) :
    containsName l k = (lookupName l k).isSome := by
  induction l with
  | nil => rfl
  | cons p rest ih =>
    obtain ⟨key, v⟩ := p
    by_cases h : key.name = k
    · simp [containsName, lookupName, h]
    · simp only [containsName, lookupName, h] at ih ⊢
      simp [h, ih]

theorem lookupName_append (l₁ l₂ : Entries) (k : String) :
    lookupName (l₁ ++ l₂) k =
      match lookupName l₁ k with
      | some v => some v
      | none => lookupName l₂ k := by
  induction l₁ with
  | nil => simp [lookupName]
  | cons p rest ih =>
    obtain ⟨key, v⟩ := p
    by_cases h : key.name = k <;> simp [lookupName, h, ih]

theorem lookupName_eraseName_ne (l : Entries) (k r : String) (h : r ≠ k) :
    lookupName (eraseName l k) r = lookupName l r := by
  induction l with
  | nil => rfl
  | cons p rest ih =>
    obtain ⟨key, v⟩ := p
    by_cases hk : key.name = k
    · have hkr : ¬ key.name = r := fun hr => h (hr ▸ hk)
      simp only [eraseName, if_pos hk, lookupName, if_neg hkr]
    · simp only [eraseName, if_neg hk, lookupName]
      by_cases hr : key.name = r
      · simp [hr]
      · simp [hr, ih]

theorem eraseName_eq_filter (l : Entries) (k : String) (h : (entryNames l).Nodup) :
    eraseName l k = l.filter (fun p => ¬ p.1.name = k) := by
  induction l with
  | nil => rfl
  | cons p rest ih =>
    obtain ⟨key, v⟩ := p
    simp only [entryNames, List.map_cons, List.nodup_cons] at h
    by_cases hk : key.name = k
    · subst hk
      have hrest : ∀ q ∈ rest, (fun p => !decide (p.1.name = key.name)) q = true := by
        intro q hq
        simp only [Bool.not_eq_true', decide_eq_false_iff_not]
        intro hqk
        exact h.1 (hqk ▸ List.mem_map_of_mem (fun p => p.1.name) hq)
      simp only [eraseName, if_pos rfl, List.filter_cons]
      simp only [decide_not]
      simp only [decide_True, Bool.not_true, Bool.false_eq_true, if_false]
      exact (List.filter_eq_self.mpr hrest).symm
    · simp [eraseName, hk, List.filter_cons, ih h.2]

theorem entryNames_eraseName (l : Entries) (k : String) (h : (entryNames l).Nodup) :
    entryNames (eraseName l k) = (entryNames l).filter (fun n => ¬ n = k) := by
  rw [eraseName_eq_filter l k h]
  simp [entryNames, List.filter_map, Function.comp_def]

theorem not_mem_eraseName (l : Entries) (k : String) (h : (entryNames l).Nodup) :
    k ∉ entryNames (eraseName l k) := by
  rw [entryNames_eraseName l k h]
  simp [List.mem_filter]

theorem nodup_eraseName (l : Entries) (k : String) (h : (entryNames l).Nodup) :
    (entryNames (eraseName l k)).Nodup := by
  rw [entryNames_eraseName l k h]
  exact h.filter _

theorem mergeLoop_eq (s d : Entries) (hs : (entryNames s).Nodup)
    (hd : (entryNames d).Nodup) :
    mergeLoop d s =
      destOnlyKeys d s ++ s.map (fun p => (p.1, resolveEntry d p.1 p.2)) := by
  induction s generalizing d with
  | nil => simp [mergeLoop, destOnlyKeys, containsName]
  | cons p rest ih =>
    obtain ⟨sk, sv⟩ := p
    simp only [entryNames, List.map_cons, List.nodup_cons] at hs
    have hsk_rest : ∀ q ∈ rest, q.1.name ≠ sk.name := by
      intro q hq hqk
      exact hs.1 (hqk ▸ List.mem_map_of_mem (fun p => p.1.name) hq)
    have hcontains_rest : containsName rest sk.name = false := by
      simp only [containsName, List.any_eq_false]
      intro q hq
      simpa using hsk_rest q hq
    -- the value the loop stores for this key is resolveEntry
    have hval :
        (if containsName d sk.name ∧ ¬ sk.override then
            merge_yaml ((lookupName d sk.name).getD .null) sv sk.prepend sk.append
          else sv) = resolveEntry d sk sv := by
      unfold resolveEntry
      rcases hlook : lookupName d sk.name with _ | old
      · simp [containsName_eq_isSome, hlook]
      · by_cases hov : sk.override <;> simp [containsName_eq_isSome, hlook, hov]
    have hd' : (entryNames (eraseName d sk.name ++ [(sk, resolveEntry d sk sv)])).Nodup := by
      have h1 := nodup_eraseName d sk.name hd
      have h2 := not_mem_eraseName d sk.name hd
      simp only [entryNames, List.map_append, List.map_cons, List.map_nil]
      simpa [entryNames] using List.Nodup.append h1 (List.nodup_singleton _)
        (by simpa [entryNames, List.disjoint_singleton] using h2)
    rw [show mergeLoop d ((sk, sv) :: rest)
          = mergeLoop (eraseName d sk.name ++ [(sk, resolveEntry d sk sv)]) rest from by
        rw [mergeLoop]; rw [hval]]
    rw [ih _ hs.2 hd']
    -- resolving the remaining source keys against the updated dict
    have hmap : List.map
          (fun p => (p.1, resolveEntry
            (eraseName d sk.name ++ [(sk, resolveEntry d sk sv)]) p.1 p.2)) rest
        = List.map (fun p => (p.1, resolveEntry d p.1 p.2)) rest := by
      apply List.map_congr_left
      intro q hq
      have hne : q.1.name ≠ sk.name := hsk_rest q hq
      have hlk : ∀ w, lookupName (eraseName d sk.name ++ [(sk, w)]) q.1.name
          = lookupName d q.1.name := by
        intro w
        rw [lookupName_append, lookupName_eraseName_ne d sk.name q.1.name hne]
        rcases hlook : lookupName d q.1.name with _ | v
        · simp [lookupName, Ne.symm hne]
        · simp
      simp [resolveEntry, hlk]
    -- dest-only keys of the updated dict against the remaining source
    have hdest : destOnlyKeys (eraseName d sk.name ++ [(sk, resolveEntry d sk sv)]) rest
        = destOnlyKeys d ((sk, sv) :: rest) ++ [(sk, resolveEntry d sk sv)] := by
      have herase := eraseName_eq_filter d sk.name hd
      have htail : List.filter (fun p => ! containsName rest p.1.name)
            [(sk, resolveEntry d sk sv)] = [(sk, resolveEntry d sk sv)] := by
        simp [List.filter_cons, hcontains_rest]
      simp only [destOnlyKeys, List.filter_append, herase, List.filter_filter, htail]
      congr 1
      apply List.filter_congr
      intro q hq
      by_cases h1 : q.1.name = sk.name
      · simp [containsName, h1, Bool.and_comm]
      · simp only [containsName, List.any_cons, List.any_eq_true, Bool.and_comm]
        simp only [h1, Ne.symm h1]
        rw [Bool.eq_iff_iff]
        simp [List.any_eq_true]
    rw [hmap, hdest]
    simp [List.append_assoc]

theorem reinsert_fold (front mid : Entries) :
    front.foldl (fun acc p => moveToEnd acc p.1) (front ++ mid) = mid ++ front := by
  induction front generalizing mid with
  | nil => simp
  | cons p fs ih =>
    obtain ⟨k, v⟩ := p
    have hstep : moveToEnd ((k, v) :: (fs ++ mid)) k = fs ++ (mid ++ [(k, v)]) := by
      simp [moveToEnd, eraseName, lookupName]
    simp only [List.cons_append, List.foldl_cons, hstep]
    rw [ih (mid ++ [(k, v)])]
    simp

/-- A plain configuration key: no override/prepend/append directive. -/
def pk (n : String) : YKey := ⟨n, false, false, false⟩

/-- C4.  `merge_yaml` on two maps returns the map whose entries are all source
keys first, in source iteration order (each resolved per `resolveEntry`:
override keys replace the dest value wholesale, other keys present in both
merge recursively), followed by the dest-only keys in their original order. -/
theorem merge_yaml_map_order (d s : Entries) (hd : (entryNames d).Nodup)
    (hs : (entryNames s).Nodup) :
    merge_yaml (.map d) (.map s) false false
      = .map (s.map (fun p => (p.1, resolveEntry d p.1 p.2)) ++ destOnlyKeys d s) := by
  have h1 : merge_yaml (.map d) (.map s) false false
      = .map (reinsertDestKeys d s (mergeLoop d s)) := by
    rw [merge_yaml]
  rw [h1, mergeLoop_eq s d hs hd]
  unfold reinsertDestKeys
  rw [reinsert_fold]

/-- Witness for C4: the spec's concrete example, `dest={k4:v4,k3:WRONG,k5:v5}`,
`source={k1:v1,k2:v2,k3:v3}` gives key order `[k1,k2,k3,k4,k5]` with `k3 = v3`. -/
theorem merge_yaml_map_order_witness :
    merge_yaml
        (.map [(pk "k4", .s "v4"), (pk "k3", .s "WRONG"), (pk "k5", .s "v5")])
        (.map [(pk "k1", .s "v1"), (pk "k2", .s "v2"), (pk "k3", .s "v3")]) false false
      = .map [(pk "k1", .s "v1"), (pk "k2", .s "v2"), (pk "k3", .s "v3"),
              (pk "k4", .s "v4"), (pk "k5", .s "v5")] := by
  rw [merge_yaml_map_order
    [(pk "k4", .s "v4"), (pk "k3", .s "WRONG"), (pk "k5", .s "v5")]
    [(pk "k1", .s "v1"), (pk "k2", .s "v2"), (pk "k3", .s "v3")]
    (by simp [entryNames, pk]) (by simp [entryNames, pk])]
  simp [resolveEntry, destOnlyKeys, containsName, lookupName, pk, merge_yaml]

/-- Embedding of `SpackCIConfig.generate_ir`'s section application as seen by
one job: `pipeline_gen = overrides + ci_config["pipeline-gen"] + defaults`
is iterated with `for section in reversed(pipeline_gen)` and each section
body is applied as a `merge_yaml` source against the running attributes
(`_apply_section`, do_merge path). -/
def apply_pipeline_gen (pipeline_gen : List Yaml) (init : Yaml) : Yaml :=
  pipeline_gen.reverse.foldl (fun dest src => merge_yaml dest src false false) init

/-- Embedding of the concatenation order in `generate_ir`: hard-coded
overrides, then the user-declared pipeline-gen sections, then hard-coded
defaults, iterated in reverse. -/
def generate_ir_attrs (overrides user defaults : List Yaml) (init : Yaml) : Yaml :=
  apply_pipeline_gen (overrides ++ user ++ defaults) init

/-- Value a section's body assigns to a top-level key name (none if the
section does not set it, or is not a map). -/
def sectionVal : Yaml → String → Option Yaml
  | .map es, k => lookupName es k
  | _, _ => none

/-- Python-style `a or b` on optional values. -/
def orElseO (a b : Option Yaml) : Option Yaml :=
  match a with
  | some v => some v
  | none => b

/-- The value assigned by the first section in declaration order that sets
the key, if any. -/
def firstSectionVal : List Yaml → String → Option Yaml
  | [], _ => none
  | sec :: rest, k => orElseO (sectionVal sec k) (firstSectionVal rest k)

/-- A well-formed section for the purposes of key `k`: a map with distinct
key names whose entries named `k` (if any) are plain scalar strings. -/
def SecOK (sec : Yaml) (k : String) : Prop :=
  ∃ es, sec = Yaml.map es ∧ (entryNames es).Nodup ∧
    ∀ p ∈ es, p.1.name = k →
      p.1.override = false ∧ p.1.prepend = false ∧ p.1.append = false ∧ ∃ str, p.2 = Yaml.s str

/-- A well-formed running attribute value: a map with distinct key names. -/
def MapOK (y : Yaml) : Prop :=
  ∃ es, y = Yaml.map es ∧ (entryNames es).Nodup

theorem orElseO_assoc (a b c : Option Yaml) :
    orElseO (orElseO a b) c = orElseO a (orElseO b c) := by
  cases a <;> rfl

theorem merge_scalar_source (x : Yaml) (str : String) :
    merge_yaml x (.s str) false false = .s str := by
  cases x <;> simp [merge_yaml]

theorem lookupName_destOnly (dd es : Entries) (k : String)
    (h : containsName es k = false) :
    lookupName (destOnlyKeys dd es) k = lookupName dd k := by
  induction dd with
  | nil => rfl
  | cons p rest ih =>
    obtain ⟨key, v⟩ := p
    unfold destOnlyKeys at ih ⊢
    rw [List.filter_cons]
    cases hcb : containsName es key.name with
    | true =>
      have hk : ¬ key.name = k := by
        intro hkk
        rw [hkk, h] at hcb
        exact Bool.false_ne_true hcb
      simp only [hcb, Bool.not_true, Bool.false_eq_true, if_false]
      rw [show lookupName ((key, v) :: rest) k = lookupName rest k from by
        simp [lookupName, hk]]
      exact ih
    | false =>
      by_cases hk : key.name = k
      · simp [hcb, lookupName, hk]
      · simp [hcb, lookupName, hk, ih]

theorem entryNames_merged (dd es : Entries) :
    entryNames (es.map (fun p => (p.1, resolveEntry dd p.1 p.2)) ++ destOnlyKeys dd es)
      = entryNames es ++ entryNames (destOnlyKeys dd es) := by
  simp [entryNames, Function.comp_def]

theorem nodup_merged (dd es : Entries) (hd : (entryNames dd).Nodup)
    (hs : (entryNames es).Nodup) :
    (entryNames (es.map (fun p => (p.1, resolveEntry dd p.1 p.2))
      ++ destOnlyKeys dd es)).Nodup := by
  rw [entryNames_merged]
  apply List.Nodup.append hs
  · have hsub : List.Sublist (destOnlyKeys dd es) dd := List.filter_sublist dd
    simpa [entryNames] using List.Nodup.sublist
      (List.Sublist.map (fun p => p.1.name) hsub) (by simpa [entryNames] using hd)
  · intro n hn hn'
    obtain ⟨p, hp, hpn⟩ := List.mem_map.mp hn'
    have hcf : containsName es p.1.name = false := by
      simpa using (List.mem_filter.mp hp).2
    obtain ⟨q, hq, hqn⟩ := List.mem_map.mp hn
    have hct : containsName es p.1.name = true := by
      simp only [containsName, List.any_eq_true]
      exact ⟨q, hq, by simp [hqn, hpn]⟩
    rw [hct] at hcf
    exact Bool.true_eq_false.mp hcf

theorem step_sectionVal (dd es : Entries) (k : String)
    (hd : (entryNames dd).Nodup) (hs : (entryNames es).Nodup)
    (hk : ∀ p ∈ es, p.1.name = k →
      p.1.override = false ∧ p.1.prepend = false ∧ p.1.append = false ∧
        ∃ str, p.2 = Yaml.s str) :
    sectionVal (merge_yaml (.map dd) (.map es) false false) k
      = orElseO (lookupName es k) (lookupName dd k) := by
  rw [merge_yaml_map_order dd es hd hs]
  show lookupName (es.map (fun p => (p.1, resolveEntry dd p.1 p.2))
    ++ destOnlyKeys dd es) k = _
  rw [lookupName_append]
  have hmapped : lookupName (es.map (fun p => (p.1, resolveEntry dd p.1 p.2))) k
      = lookupName es k := by
    clear hs
    induction es with
    | nil => rfl
    | cons p rest ih =>
      obtain ⟨key, v⟩ := p
      have hk' : ∀ p ∈ rest, p.1.name = k →
          p.1.override = false ∧ p.1.prepend = false ∧ p.1.append = false ∧
            ∃ str, p.2 = Yaml.s str := by
        intro p hp
        exact hk p (by simp [hp])
      by_cases hkey : key.name = k
      · obtain ⟨hov, hpre, happ, str, hstr⟩ := hk (key, v) (by simp) hkey
        have hov' : key.override = false := hov
        have hpre' : key.prepend = false := hpre
        have happ' : key.append = false := happ
        have hstr' : v = Yaml.s str := hstr
        have hres : resolveEntry dd key v = v := by
          unfold resolveEntry
          cases lookupName dd key.name with
          | none => rfl
          | some old =>
            rw [hov', hpre', happ', hstr']
            simp [merge_scalar_source]
        simp [lookupName, hkey, hres]
      · simp [lookupName, hkey, ih hk']
  rw [hmapped]
  cases hlk : lookupName es k with
  | some v => rfl
  | none =>
    have hc : containsName es k = false := by
      rw [containsName_eq_isSome, hlk]
      rfl
    rw [lookupName_destOnly dd es k hc]
    rfl

theorem apply_pipeline_gen_lookup (L : List Yaml) (init : Yaml) (k : String)
    (hinit : MapOK init) (hL : ∀ sec ∈ L, SecOK sec k) :
    sectionVal (apply_pipeline_gen L init) k
        = orElseO (firstSectionVal L k) (sectionVal init k)
      ∧ MapOK (apply_pipeline_gen L init) := by
  induction L with
  | nil =>
    constructor
    · rfl
    · exact hinit
  | cons sec rest ih =>
    obtain ⟨ihval, dm, hM, hMnodup⟩ := ih (fun s hs => hL s (by simp [hs]))
    obtain ⟨es, hsec, hesnodup, hesk⟩ := hL sec (by simp)
    have hstep : apply_pipeline_gen (sec :: rest) init
        = merge_yaml (apply_pipeline_gen rest init) sec false false := by
      simp [apply_pipeline_gen, List.foldl_append]
    have hval : sectionVal (apply_pipeline_gen (sec :: rest) init) k
        = orElseO (sectionVal sec k)
            (sectionVal (apply_pipeline_gen rest init) k) := by
      rw [hstep, hM, hsec, step_sectionVal dm es k hMnodup hesnodup hesk]
      rfl
    constructor
    · rw [hval, ihval, firstSectionVal, orElseO_assoc]
    · rw [hstep, hM, hsec]
      rw [merge_yaml_map_order dm es hMnodup hesnodup]
      exact ⟨_, rfl, nodup_merged dm es hMnodup hesnodup⟩

theorem firstSectionVal_append (l₁ l₂ : List Yaml) (k : String) :
    firstSectionVal (l₁ ++ l₂) k
      = orElseO (firstSectionVal l₁ k) (firstSectionVal l₂ k) := by
  induction l₁ with
  | nil => rfl
  | cons sec rest ih => simp [firstSectionVal, ih, orElseO_assoc]

/-- C1.  `generate_ir` concatenates hard-coded overrides, the user-declared
pipeline-gen sections (in declared order) and hard-coded defaults, iterates
the concatenation in reverse, and merges each section as the source, so for
any job-attribute key the resulting value is: the first-listed hard-coded
override setting it, else the first-declared user section setting it, else
the first hard-coded default setting it, else the initial value. -/
theorem generate_ir_precedence (O U D : List Yaml) (init : Yaml) (k : String)
    (hinit : MapOK init) (hall : ∀ sec ∈ O ++ U ++ D, SecOK sec k) :
    sectionVal (generate_ir_attrs O U D init) k
      = orElseO (firstSectionVal O k)
          (orElseO (firstSectionVal U k)
            (orElseO (firstSectionVal D k) (sectionVal init k))) := by
  have h := (apply_pipeline_gen_lookup (O ++ U ++ D) init k hinit hall).1
  rw [generate_ir_attrs] at *
  rw [h]
  simp only [firstSectionVal_append, orElseO_assoc]

theorem secOK_single (n str k : String) :
    SecOK (Yaml.map [(pk n, .s str)]) k := by
  refine ⟨_, rfl, by simp [entryNames, pk], ?_⟩
  intro p hp hpk
  simp only [List.mem_singleton] at hp
  subst hp
  exact ⟨rfl, rfl, rfl, _, rfl⟩

/-- Witness for C1: an override, two user sections and a default all set the
same key; the override's value wins (and with no override the first user
section would win, per the same theorem). -/
theorem generate_ir_precedence_witness :
    sectionVal (generate_ir_attrs
        [Yaml.map [(pk "tags", .s "ov")]]
        [Yaml.map [(pk "tags", .s "u1")], Yaml.map [(pk "tags", .s "u2")]]
        [Yaml.map [(pk "tags", .s "df")]] (Yaml.map [])) "tags"
      = some (Yaml.s "ov") := by
  rw [generate_ir_precedence
      [Yaml.map [(pk "tags", .s "ov")]]
      [Yaml.map [(pk "tags", .s "u1")], Yaml.map [(pk "tags", .s "u2")]]
      [Yaml.map [(pk "tags", .s "df")]] (Yaml.map []) "tags"
      ⟨[], rfl, List.nodup_nil⟩ ?_]
  · simp [firstSectionVal, sectionVal, lookupName, orElseO, pk]
  · intro sec hsec
    have h4 : sec = Yaml.map [(pk "tags", .s "ov")]
        ∨ sec = Yaml.map [(pk "tags", .s "u1")]
        ∨ sec = Yaml.map [(pk "tags", .s "u2")]
        ∨ sec = Yaml.map [(pk "tags", .s "df")] := by
      simpa using hsec
    rcases h4 with h | h | h | h <;> (subst h; exact secOK_single _ _ _)

/-- Embedding of `PipelineNode` (`ci/common.py`): the stored spec is reduced
to its name (used as traversal sort key) while the node's key (the spec's
dag hash) is the association key in the graph dictionary. -/
structure PipelineNode where
  name : String
  parents : Finset String
  children : Finset String
deriving DecidableEq

/-- Embedding of `PipelineDag.nodes`: the dictionary mapping dag-hash key to
node, as an association list with unique keys. -/
abbrev PipelineDag := List (String × PipelineNode)

/-- Python `self.nodes[key]` lookup. -/
def lookupNode : PipelineDag → String → Option PipelineNode
  | [], _ => none
  | (key, n) :: rest, k => if key = k then some n else lookupNode rest k

/-- Python `for parent in node.parents: self.nodes[parent].children.remove(node_key);
self.nodes[parent].children |= node.children` — since dictionary keys are
unique, updating every entry whose key lies in `node.parents` performs the
same per-node update. -/
def reconnectParents (node_key : String) (node : PipelineNode) (g : PipelineDag) :
    PipelineDag :=
  g.map (fun p => (p.1,
    if p.1 ∈ node.parents then
      { p.2 with children := (p.2.children.erase node_key) ∪ node.children }
    else p.2))

/-- Python `for child in node.children: self.nodes[child].parents.remove(node_key);
self.nodes[child].parents |= node.parents`. -/
def reconnectChildren (node_key : String) (node : PipelineNode) (g : PipelineDag) :
    PipelineDag :=
  g.map (fun p => (p.1,
    if p.1 ∈ node.children then
      { p.2 with parents := (p.2.parents.erase node_key) ∪ node.parents }
    else p.2))

/-- Embedding of `PipelineDag.prune(node_key)`: reconnect the pruned node's
parents to its children (and symmetrically), then delete the node
(`del self.nodes[node_key]`).  Python raises `KeyError` on a missing key;
the claims only concern keys present in the graph. -/
def prune (g : PipelineDag) (node_key : String) : PipelineDag :=
  match lookupNode g node_key with
  | none => g
  | some node =>
    (reconnectChildren node_key node (reconnectParents node_key node g)).filter
      (fun p => p.1 != node_key)

/-- The spec's mutual-edge invariant: key in children of parent iff
parent-key in parents of child, for nodes present in the graph. -/
def EdgesMutual (g : PipelineDag) : Prop :=
  ∀ p np c nc, lookupNode g p = some np → lookupNode g c = some nc →
    (c ∈ np.children ↔ p ∈ nc.parents)

/-- The association list has unique keys (it embeds a Python dict). -/
def NodupKeys (g : PipelineDag) : Prop := (g.map Prod.fst).Nodup

theorem lookupNode_map_value (l : PipelineDag) (h : String → PipelineNode → PipelineNode)
    (k : String) :
    lookupNode (l.map (fun p => (p.1, h p.1 p.2))) k = (lookupNode l k).map (h k) := by
  induction l with
  | nil => rfl
  | cons p rest ih =>
    obtain ⟨key, n⟩ := p
    by_cases hk : key = k
    · subst hk
      simp [lookupNode]
    · simp [lookupNode, hk, ih]

theorem lookupNode_filter_ne (l : PipelineDag) (key k : String) (h : k ≠ key) :
    lookupNode (l.filter (fun p => p.1 != key)) k = lookupNode l k := by
  induction l with
  | nil => rfl
  | cons p rest ih =>
    obtain ⟨pk', n⟩ := p
    by_cases hpk : pk' = key
    · have hne : ¬ pk' = k := fun hh => h (hh ▸ hpk)
      simp [List.filter_cons, hpk, lookupNode, hne, ih, Ne.symm h]
    · by_cases hk : pk' = k <;> simp [List.filter_cons, hpk, lookupNode, hk, ih, h]

theorem lookupNode_filter_self (l : PipelineDag) (key : String) :
    lookupNode (l.filter (fun p => p.1 != key)) key = none := by
  induction l with
  | nil => rfl
  | cons p rest ih =>
    obtain ⟨pk', n⟩ := p
    by_cases hpk : pk' = key
    · simp [List.filter_cons, hpk, ih]
    · simp [List.filter_cons, hpk, lookupNode, ih]

/-- Combined per-node effect of `prune`'s two reconnection loops on the node
stored under key `k`. -/
def pruneUpdate (node_key : String) (node : PipelineNode) (k : String)
    (n : PipelineNode) : PipelineNode :=
  let n1 := if k ∈ node.parents then
    { n with children := (n.children.erase node_key) ∪ node.children } else n
  if k ∈ node.children then
    { n1 with parents := (n1.parents.erase node_key) ∪ node.parents } else n1

theorem pruneUpdate_children (node_key : String) (node : PipelineNode) (k : String)
    (n : PipelineNode) :
    (pruneUpdate node_key node k n).children
      = if k ∈ node.parents then (n.children.erase node_key) ∪ node.children
        else n.children := by
  unfold pruneUpdate
  by_cases h1 : k ∈ node.parents <;> by_cases h2 : k ∈ node.children <;> simp [h1, h2]

theorem pruneUpdate_parents (node_key : String) (node : PipelineNode) (k : String)
    (n : PipelineNode) :
    (pruneUpdate node_key node k n).parents
      = if k ∈ node.children then (n.parents.erase node_key) ∪ node.parents
        else n.parents := by
  unfold pruneUpdate
  by_cases h1 : k ∈ node.parents <;> by_cases h2 : k ∈ node.children <;> simp [h1, h2]

theorem lookupNode_reconnectParents (key : String) (node : PipelineNode)
    (g : PipelineDag) (k : String) :
    lookupNode (reconnectParents key node g) k
      = (lookupNode g k).map (fun n =>
          if k ∈ node.parents then
            { n with children := (n.children.erase key) ∪ node.children } else n) := by
  induction g with
  | nil => rfl
  | cons p rest ih =>
    obtain ⟨pk', n⟩ := p
    unfold reconnectParents at ih ⊢
    by_cases hk : pk' = k
    · subst hk
      simp [lookupNode]
    · simp [lookupNode, hk, ih]

theorem lookupNode_reconnectChildren (key : String) (node : PipelineNode)
    (g : PipelineDag) (k : String) :
    lookupNode (reconnectChildren key node g) k
      = (lookupNode g k).map (fun n =>
          if k ∈ node.children then
            { n with parents := (n.parents.erase key) ∪ node.parents } else n) := by
  induction g with
  | nil => rfl
  | cons p rest ih =>
    obtain ⟨pk', n⟩ := p
    unfold reconnectChildren at ih ⊢
    by_cases hk : pk' = k
    · subst hk
      simp [lookupNode]
    · simp [lookupNode, hk, ih]

theorem prune_lookup_ne (g : PipelineDag) (key : String) (node : PipelineNode)
    (k' : String) (hk : lookupNode g key = some node) (h : k' ≠ key) :
    lookupNode (prune g key) k' = (lookupNode g k').map (pruneUpdate key node k') := by
  unfold prune
  rw [hk]
  rw [lookupNode_filter_ne _ _ _ h]
  rw [lookupNode_reconnectChildren, lookupNode_reconnectParents]
  cases lookupNode g k' <;> simp [pruneUpdate]

/-- C2.  For a graph satisfying the mutual-edge invariant and a present,
self-loop-free node, `prune(key)` removes the node, leaves no remaining
node's parents or children containing the pruned key, preserves the
mutual-edge invariant, and connects every parent of the pruned node directly
to all of its children (and symmetrically). -/
theorem prune_correct (g : PipelineDag) (key : String) (node : PipelineNode)
    (hmut : EdgesMutual g)
    (hk : lookupNode g key = some node)
    (hsp : key ∉ node.parents) (hsc : key ∉ node.children) :
    lookupNode (prune g key) key = none
    ∧ (∀ k' n', lookupNode (prune g key) k' = some n' →
        key ∉ n'.parents ∧ key ∉ n'.children)
    ∧ EdgesMutual (prune g key)
    ∧ (∀ p np', p ∈ node.parents → lookupNode (prune g key) p = some np' →
        node.children ⊆ np'.children)
    ∧ (∀ c nc', c ∈ node.children → lookupNode (prune g key) c = some nc' →
        node.parents ⊆ nc'.parents) := by
  have habsent : lookupNode (prune g key) key = none := by
    unfold prune
    rw [hk]
    exact lookupNode_filter_self _ _
  have hlook : ∀ k' n', lookupNode (prune g key) k' = some n' →
      k' ≠ key ∧ ∃ m, lookupNode g k' = some m ∧ n' = pruneUpdate key node k' m := by
    intro k' n' hl
    have hne : k' ≠ key := by
      intro hkk
      rw [hkk, habsent] at hl
      cases hl
    rw [prune_lookup_ne g key node k' hk hne] at hl
    cases hm : lookupNode g k' with
    | none => rw [hm] at hl; cases hl
    | some m =>
      rw [hm] at hl
      exact ⟨hne, m, rfl, (Option.some.inj hl).symm⟩
  refine ⟨habsent, ?_, ?_, ?_, ?_⟩
  · -- no remaining node references the pruned key
    intro k' n' hl
    obtain ⟨hne, m, hm, rfl⟩ := hlook k' n' hl
    constructor
    · rw [pruneUpdate_parents]
      by_cases hc : k' ∈ node.children
      · simp [hc, Finset.mem_union, Finset.mem_erase, hsp]
      · simp only [hc, if_false]
        intro hkm
        exact hc ((hmut key node k' m hk hm).mpr hkm)
    · rw [pruneUpdate_children]
      by_cases hp : k' ∈ node.parents
      · simp [hp, Finset.mem_union, Finset.mem_erase, hsc]
      · simp only [hp, if_false]
        intro hkm
        exact hp ((hmut k' m key node hm hk).mp hkm)
  · -- the mutual-edge invariant is preserved
    intro p np' c nc' hp hc
    obtain ⟨hpne, np, hnp, rfl⟩ := hlook p np' hp
    obtain ⟨hcne, nc, hnc, rfl⟩ := hlook c nc' hc
    rw [pruneUpdate_children, pruneUpdate_parents]
    have hbase := hmut p np c nc hnp hnc
    by_cases h1 : p ∈ node.parents <;> by_cases h2 : c ∈ node.children
    · simp [h1, h2]
    · have hcnode : (c ∈ np.children.erase key ∪ node.children) ↔ c ∈ np.children := by
        simp [Finset.mem_union, Finset.mem_erase, hcne, h2]
      simp only [h1, h2, if_true, if_false]
      rw [hcnode]
      exact hbase
    · have hpnode : (p ∈ nc.parents.erase key ∪ node.parents) ↔ p ∈ nc.parents := by
        simp [Finset.mem_union, Finset.mem_erase, hpne, h1]
      simp only [h1, h2, if_true, if_false]
      rw [hpnode]
      exact hbase
    · simp only [h1, h2, if_false]
      exact hbase
  · -- each parent gains direct edges to all children of the pruned node
    intro p np' hp hl
    obtain ⟨hpne, np, hnp, rfl⟩ := hlook p np' hl
    rw [pruneUpdate_children, if_pos hp]
    exact Finset.subset_union_right
  · -- and symmetrically for the children
    intro c nc' hc hl
    obtain ⟨hcne, nc, hnc, rfl⟩ := hlook c nc' hl
    rw [pruneUpdate_parents, if_pos hc]
    exact Finset.subset_union_right

/-- The spec's pruning-reconnection example: chain A→B→C (A depends on B,
B depends on C). -/
def chainABC : PipelineDag :=
  [("A", ⟨"a", ∅, {"B"}⟩), ("B", ⟨"b", {"A"}, {"C"}⟩), ("C", ⟨"c", {"B"}, ∅⟩)]

theorem chainABC_lookup (k : String) (n : PipelineNode)
    (h : lookupNode chainABC k = some n) :
    (k = "A" ∧ n = ⟨"a", ∅, {"B"}⟩) ∨ (k = "B" ∧ n = ⟨"b", {"A"}, {"C"}⟩)
      ∨ (k = "C" ∧ n = ⟨"c", {"B"}, ∅⟩) := by
  simp only [chainABC, lookupNode] at h
  split_ifs at h with h1 h2 h3
  · exact Or.inl ⟨h1.symm, (Option.some.inj h).symm⟩
  · exact Or.inr (Or.inl ⟨h2.symm, (Option.some.inj h).symm⟩)
  · exact Or.inr (Or.inr ⟨h3.symm, (Option.some.inj h).symm⟩)

theorem chainABC_mutual : EdgesMutual chainABC := by
  intro p np c nc hp hc
  rcases chainABC_lookup p np hp with ⟨rfl, rfl⟩ | ⟨rfl, rfl⟩ | ⟨rfl, rfl⟩ <;>
    rcases chainABC_lookup c nc hc with ⟨rfl, rfl⟩ | ⟨rfl, rfl⟩ | ⟨rfl, rfl⟩
  all_goals decide

/-- Witness for C2: on the chain A→B→C, `prune("B")` removes B and the
mutual-edge invariant still holds (with A now directly connected to C per
the theorem's reconnection clauses). -/
theorem prune_correct_witness :
    lookupNode (prune chainABC "B") "B" = none
      ∧ EdgesMutual (prune chainABC "B") := by
  have h := prune_correct chainABC "B" ⟨"b", {"A"}, {"C"}⟩ chainABC_mutual
    (by decide) (by decide) (by decide)
  exact ⟨h.1, h.2.2.1⟩

/-- Python `num_in_edges` dictionary lookup. -/
def lookupInt : List (String × Int) → String → Option Int
  | [], _ => none
  | (key, v) :: rest, k => if key = k then some v else lookupInt rest k

/-- Python `num_in_edges[m] = v` on an existing key (a missing key would be a
`KeyError`; on a missing key this is a no-op). -/
def updateInt : List (String × Int) → String → Int → List (String × Int)
  | [], _, _ => []
  | (key, v) :: rest, k, w =>
    if key = k then (key, w) :: rest else (key, v) :: updateInt rest k w

/-- Python `if direction == "children": get_in_edges = lambda node: node.parents`
(`traverse_nodes`); any other direction string selects the `parents` direction. -/
def get_in_sets (direction : String) : PipelineNode → Finset String :=
  if direction = "children" then (fun n => n.parents) else (fun n => n.children)

/-- Python `get_out_edges` of `traverse_nodes`. -/
def get_out_sets (direction : String) : PipelineNode → Finset String :=
  if direction = "children" then (fun n => n.children) else (fun n => n.parents)

/-- The in-edge set of a key for the chosen direction (empty for a key not in
the graph). -/
def inSet (g : PipelineDag) (direction : String) (k : String) : Finset String :=
  match lookupNode g k with
  | some n => get_in_sets direction n
  | none => ∅

/-- Python `sort_key = lambda k: self.nodes[k].spec.name`. -/
def sortKeyName (g : PipelineDag) (k : String) : String :=
  match lookupNode g k with
  | some n => n.name
  | none => ""

/-- Lexicographic comparison of char lists by code point: the order Python
`sorted` uses on strings. -/
def charListLe : List Char → List Char → Bool
  | [], _ => true
  | _ :: _, [] => false
  | c :: cs, d :: ds =>
    if c.toNat < d.toNat then true
    else if d.toNat < c.toNat then false
    else charListLe cs ds

/-- Python string comparison (lexicographic by code point). -/
def strLe (a b : String) : Bool := charListLe a.data b.data

theorem charListLe_total (a b : List Char) : charListLe a b ∨ charListLe b a := by
  induction a generalizing b with
  | nil => left; rfl
  | cons c cs ih =>
    cases b with
    | nil => right; rfl
    | cons d ds =>
      by_cases h1 : c.toNat < d.toNat
      · left; simp [charListLe, h1]
      · by_cases h2 : d.toNat < c.toNat
        · right; simp [charListLe, h2]
        · rcases ih ds with h | h
          · left; simp [charListLe, h1, h2, h]
          · right; simp [charListLe, h1, h2, h]

theorem charListLe_trans (a b c : List Char) (hab : charListLe a b)
    (hbc : charListLe b c) : charListLe a c := by
  induction a generalizing b c with
  | nil => rfl
  | cons x xs ih =>
    cases b with
    | nil => simp [charListLe] at hab
    | cons y ys =>
      cases c with
      | nil => simp [charListLe] at hbc
      | cons z zs =>
        simp only [charListLe] at hab hbc ⊢
        split_ifs at hab hbc ⊢
        any_goals rfl
        any_goals omega
        any_goals exact ih ys zs hab hbc

theorem charListLe_antisymm (a b : List Char) (hab : charListLe a b)
    (hba : charListLe b a) : a = b := by
  induction a generalizing b with
  | nil =>
    cases b with
    | nil => rfl
    | cons y ys => simp [charListLe] at hba
  | cons x xs ih =>
    cases b with
    | nil => simp [charListLe] at hab
    | cons y ys =>
      simp only [charListLe] at hab hba
      split_ifs at hab hba <;> try omega
      have hn : x.toNat = y.toNat := by omega
      have hxy : x = y := Char.ext (UInt32.ext hn)
      rw [hxy, ih ys hab hba]

theorem strLe_total (a b : String) : strLe a b ∨ strLe b a :=
  charListLe_total a.data b.data

theorem strLe_trans (a b c : String) (hab : strLe a b) (hbc : strLe b c) :
    strLe a c := charListLe_trans a.data b.data c.data hab hbc

theorem strLe_antisymm (a b : String) (hab : strLe a b) (hba : strLe b a) :
    a = b := by
  have hd := charListLe_antisymm a.data b.data hab hba
  cases a
  cases b
  exact congrArg String.mk hd

/-- A Python set iterated in canonical (ascending) key order; the model's
stand-in for `set` iteration order. -/
def setToList (s : Finset String) : List String :=
  Quot.liftOn s.val (fun l => List.insertionSort (fun a b => strLe a b = true) l)
    (fun l₁ l₂ h => by
      haveI : IsTotal String (fun a b => strLe a b = true) :=
        ⟨fun a b => strLe_total a b⟩
      haveI : IsTrans String (fun a b => strLe a b = true) :=
        ⟨fun a b c => strLe_trans a b c⟩
      haveI : IsAntisymm String (fun a b => strLe a b = true) :=
        ⟨fun a b => strLe_antisymm a b⟩
      exact List.eq_of_perm_of_sorted
        ((List.perm_insertionSort _ l₁).trans
          (h.trans (List.perm_insertionSort _ l₂).symm))
        (List.sorted_insertionSort _ l₁) (List.sorted_insertionSort _ l₂))

/-- Python `out_edges = {k: sorted(get_out_edges(n), key=sort_key) ...}`:
the out-edges of a node, stably sorted by the spec name of the target. -/
def outList (g : PipelineDag) (direction : String) (k : String) : List String :=
  match lookupNode g k with
  | some n => List.insertionSort
      (fun a b => strLe (sortKeyName g a) (sortKeyName g b) = true)
      (setToList (get_out_sets direction n))
  | none => []

/-- Python `num_in_edges = {k: len(get_in_edges(n)) ...}`. -/
def initNumIn (g : PipelineDag) (direction : String) : List (String × Int) :=
  g.map (fun p => (p.1, ((get_in_sets direction p.2).card : Int)))

/-- Python `nodes = deque(sorted([(0, key) for key in self.nodes.keys() if
num_in_edges[key] == 0], key=lambda item: item[1]))`.  The deque is
represented with its right (pop) end at the head of the list, so the
ascending-by-key sorted list is reversed. -/
def initQueue (g : PipelineDag) (direction : String) : List (Nat × String) :=
  (List.insertionSort (fun a b => strLe a.2 b.2 = true)
    ((g.filter (fun p => (get_in_sets direction p.2).card == 0)).map
      (fun p => ((0 : Nat), p.1)))).reverse

/-- Total `toNat` weight of the in-edge counters (termination measure). -/
def intWeight (numIn : List (String × Int)) : Nat :=
  (numIn.map (fun p => p.2.toNat)).sum

/-- Python inner loop of `traverse_nodes`: `for m in out_edges[n]:
num_in_edges[m] -= 1; if num_in_edges[m] == 0: nodes.appendleft((depth+1, m))`.
`appendleft` lands at the far (append) end of the deque representation. -/
def decrementEdges (out : List String) (numIn : List (String × Int)) (depth : Nat)
    (queue : List (Nat × String)) : List (String × Int) × List (Nat × String) :=
  out.foldl (fun st m =>
    let v := (lookupInt st.1 m).getD 0
    let n1 := updateInt st.1 m (v - 1)
    if v - 1 = 0 then (n1, st.2 ++ [(depth + 1, m)]) else (n1, st.2)) (numIn, queue)

/-- Python `while nodes: depth, n_key = nodes.pop(); yield (depth, n_key); ...`
of `traverse_nodes`, with an explicit fuel argument; `traverse_nodes` supplies
fuel that provably dominates the loop's decreasing measure, so the zero-fuel
branch is never taken. -/
def traverseLoopF (out : String → List String) :
    Nat → List (String × Int) → List (Nat × String) → List (Nat × String)
  | 0, _, _ => []
  | _ + 1, _, [] => []
  | fuel + 1, numIn, (depth, n) :: rest =>
    let st := decrementEdges (out n) numIn depth rest
    (depth, n) :: traverseLoopF out fuel st.1 st.2

/-- Embedding of `PipelineDag.traverse_nodes(direction)` (`ci/common.py`):
topological traversal yielding `(depth, key)` pairs (the Python generator
yields `(depth, self.nodes[key])`; the node is recovered by key lookup). -/
def traverse_nodes (g : PipelineDag) (direction : String) : List (Nat × String) :=
  let q := initQueue g direction
  let numIn := initNumIn g direction
  traverseLoopF (outList g direction) (q.length + intWeight numIn) numIn q

/-- Two independent roots whose hash-key order is the opposite of nothing —
keys ascend k1, k2 while names ascend alpha, beta; the traversal pops the
deque from the right, yielding descending key order. -/
def twoRoots : PipelineDag :=
  [("k1", ⟨"alpha", ∅, ∅⟩), ("k2", ⟨"beta", ∅, ∅⟩)]

/-- Counterexample for C3: the two equal-depth roots are yielded as k2
(name beta) then k1 (name alpha) — descending hash-key order, not ascending
alphabetical order of spec name. -/
theorem traverse_nodes_name_order_counterexample :
    traverse_nodes twoRoots "children" = [(0, "k2"), (0, "k1")]
    ∧ (traverse_nodes twoRoots "children").map (fun p => sortKeyName twoRoots p.2)
        = ["beta", "alpha"]
    ∧ ¬ List.Sorted (fun a b => strLe a b = true)
        ((traverse_nodes twoRoots "children").map (fun p => sortKeyName twoRoots p.2)) := by
  refine ⟨by decide, by decide, ?_⟩
  intro hsorted
  rw [show (traverse_nodes twoRoots "children").map (fun p => sortKeyName twoRoots p.2)
      = ["beta", "alpha"] from by decide] at hsorted
  have := List.rel_of_sorted_cons hsorted "alpha" (by simp)
  exact absurd this (by decide)

theorem decrementEdges_queue_extend (out : List String) :
    ∀ (numIn : List (String × Int)) (depth : Nat) (queue : List (Nat × String)),
      ∃ app, (decrementEdges out numIn depth queue).2 = queue ++ app := by
  induction out with
  | nil => exact fun numIn depth queue => ⟨[], by simp [decrementEdges]⟩
  | cons m rest ih =>
    intro numIn depth queue
    have hstep : decrementEdges (m :: rest) numIn depth queue
        = decrementEdges rest (updateInt numIn m (((lookupInt numIn m).getD 0) - 1)) depth
            (if ((lookupInt numIn m).getD 0) - 1 = 0
              then queue ++ [(depth + 1, m)] else queue) := by
      simp only [decrementEdges, List.foldl_cons]
      by_cases h : ((lookupInt numIn m).getD 0) - 1 = 0 <;> simp [h]
    rw [hstep]
    by_cases h : ((lookupInt numIn m).getD 0) - 1 = 0
    · rw [if_pos h]
      obtain ⟨app, happ⟩ := ih (updateInt numIn m (((lookupInt numIn m).getD 0) - 1))
        depth (queue ++ [(depth + 1, m)])
      exact ⟨(depth + 1, m) :: app, by rw [happ, List.append_assoc]; rfl⟩
    · rw [if_neg h]
      exact ih _ depth queue

theorem traverseLoopF_front (out : String → List String) :
    ∀ (q extra : List (Nat × String)) (numIn : List (String × Int)) (fuel : Nat),
      q.length ≤ fuel →
      ∃ suffix, traverseLoopF out fuel numIn (q ++ extra) = q ++ suffix := by
  intro q
  induction q with
  | nil => exact fun extra numIn fuel _ => ⟨traverseLoopF out fuel numIn extra, rfl⟩
  | cons hd tl ih =>
    obtain ⟨d, n⟩ := hd
    intro extra numIn fuel hf
    cases fuel with
    | zero => simp at hf
    | succ f =>
      obtain ⟨app, happ⟩ := decrementEdges_queue_extend (out n) numIn d (tl ++ extra)
      obtain ⟨suffix, hsuf⟩ :=
        ih (extra ++ app) (decrementEdges (out n) numIn d (tl ++ extra)).1 f
          (by simpa using Nat.succ_le_succ_iff.mp hf)
      refine ⟨suffix, ?_⟩
      show (d, n) :: traverseLoopF out f
          (decrementEdges (out n) numIn d (tl ++ extra)).1
          (decrementEdges (out n) numIn d (tl ++ extra)).2
        = ((d, n) :: tl) ++ suffix
      rw [happ, List.append_assoc, hsuf]
      rfl

theorem lookupNode_mem_iff (g : PipelineDag) (k : String) (n : PipelineNode)
    (h : NodupKeys g) : lookupNode g k = some n ↔ (k, n) ∈ g := by
  induction g with
  | nil => simp [lookupNode]
  | cons p rest ih =>
    obtain ⟨pk', pn⟩ := p
    simp only [NodupKeys, List.map_cons, List.nodup_cons] at h
    by_cases hk : pk' = k
    · subst hk
      constructor
      · intro hs
        simp only [lookupNode, if_pos rfl] at hs
        exact List.mem_cons.mpr (Or.inl (by rw [Option.some.inj hs]))
      · intro hmem
        rcases List.mem_cons.mp hmem with heq | hmem'
        · have hv : n = pn := congrArg Prod.snd heq
          simp [lookupNode, hv]
        · exact absurd (List.mem_map_of_mem Prod.fst hmem') h.1
    · constructor
      · intro hs
        simp only [lookupNode, if_neg hk] at hs
        exact List.mem_cons.mpr (Or.inr ((ih h.2).mp hs))
      · intro hmem
        rcases List.mem_cons.mp hmem with heq | hmem'
        · exact absurd (congrArg Prod.fst heq).symm hk
        · simp only [lookupNode, if_neg hk]
          exact (ih h.2).mpr hmem'

theorem lookupNode_none_iff (g : PipelineDag) (k : String) :
    lookupNode g k = none ↔ k ∉ g.map Prod.fst := by
  induction g with
  | nil => simp [lookupNode]
  | cons p rest ih =>
    obtain ⟨pk', pn⟩ := p
    by_cases hk : pk' = k
    · subst hk
      simp [lookupNode]
    · simp [lookupNode, hk, ih, Ne.symm hk]

theorem NodupKeys_perm (g₁ g₂ : PipelineDag) (h : g₁.Perm g₂)
    (h₁ : NodupKeys g₁) : NodupKeys g₂ :=
  (h.map Prod.fst).nodup_iff.mp h₁

theorem lookupNode_perm (g₁ g₂ : PipelineDag) (h : g₁.Perm g₂)
    (hnd : NodupKeys g₁) (k : String) : lookupNode g₁ k = lookupNode g₂ k := by
  cases hl : lookupNode g₁ k with
  | none =>
    rw [eq_comm, lookupNode_none_iff]
    exact fun hmem => (lookupNode_none_iff g₁ k).mp hl ((h.map Prod.fst).mem_iff.mpr hmem)
  | some n =>
    rw [eq_comm, lookupNode_mem_iff g₂ k n (NodupKeys_perm g₁ g₂ h hnd)]
    exact h.mem_iff.mp ((lookupNode_mem_iff g₁ k n hnd).mp hl)

theorem lookupInt_initNumIn (g : PipelineDag) (direction : String) (k : String) :
    lookupInt (initNumIn g direction) k
      = (lookupNode g k).map (fun n => ((get_in_sets direction n).card : Int)) := by
  induction g with
  | nil => rfl
  | cons p rest ih =>
    obtain ⟨pk', pn⟩ := p
    unfold initNumIn at ih ⊢
    by_cases hk : pk' = k <;> simp [lookupInt, lookupNode, hk, ih]

theorem lookupInt_updateInt (l : List (String × Int)) (m : String) (w : Int)
    (k : String) :
    lookupInt (updateInt l m w) k
      = if m = k then (lookupInt l k).map (fun _ => w) else lookupInt l k := by
  induction l with
  | nil => by_cases h : m = k <;> simp [updateInt, lookupInt, h]
  | cons p rest ih =>
    obtain ⟨pk', v⟩ := p
    by_cases hpm : pk' = m
    · subst hpm
      by_cases hk : pk' = k
      · subst hk
        simp [updateInt, lookupInt]
      · simp [updateInt, lookupInt, hk]
    · by_cases hk : pk' = k
      · subst hk
        have hmk : ¬ m = pk' := fun hh => hpm hh.symm
        simp [updateInt, lookupInt, hpm, hmk]
      · simp [updateInt, lookupInt, hpm, hk, ih]

theorem decrementEdges_cons (m : String) (rest : List String)
    (numIn : List (String × Int)) (depth : Nat) (queue : List (Nat × String)) :
    decrementEdges (m :: rest) numIn depth queue
      = decrementEdges rest (updateInt numIn m (((lookupInt numIn m).getD 0) - 1)) depth
          (if ((lookupInt numIn m).getD 0) - 1 = 0
            then queue ++ [(depth + 1, m)] else queue) := by
  simp only [decrementEdges, List.foldl_cons]
  by_cases h : ((lookupInt numIn m).getD 0) - 1 = 0 <;> simp [h]

theorem decrementEdges_congr (out : List String) :
    ∀ (numIn₁ numIn₂ : List (String × Int)) (depth : Nat) (queue : List (Nat × String)),
      (∀ k, lookupInt numIn₁ k = lookupInt numIn₂ k) →
      (decrementEdges out numIn₁ depth queue).2 = (decrementEdges out numIn₂ depth queue).2
      ∧ ∀ k, lookupInt (decrementEdges out numIn₁ depth queue).1 k
          = lookupInt (decrementEdges out numIn₂ depth queue).1 k := by
  induction out with
  | nil => exact fun numIn₁ numIn₂ depth queue h => ⟨rfl, h⟩
  | cons m rest ih =>
    intro numIn₁ numIn₂ depth queue h
    rw [decrementEdges_cons, decrementEdges_cons]
    simp only [h m]
    apply ih
    intro k
    rw [lookupInt_updateInt, lookupInt_updateInt, h k]

theorem traverseLoopF_congr (out₁ out₂ : String → List String)
    (hout : ∀ k, out₁ k = out₂ k) :
    ∀ (fuel : Nat) (numIn₁ numIn₂ : List (String × Int)) (queue : List (Nat × String)),
      (∀ k, lookupInt numIn₁ k = lookupInt numIn₂ k) →
      traverseLoopF out₁ fuel numIn₁ queue = traverseLoopF out₂ fuel numIn₂ queue := by
  intro fuel
  induction fuel with
  | zero => intro _ _ _ _; rfl
  | succ f ih =>
    intro numIn₁ numIn₂ queue h
    cases queue with
    | nil => rfl
    | cons hd rest =>
      obtain ⟨d, n⟩ := hd
      obtain ⟨hq, hn⟩ := decrementEdges_congr (out₁ n) numIn₁ numIn₂ d rest h
      show (d, n) :: traverseLoopF out₁ f _ _ = (d, n) :: traverseLoopF out₂ f _ _
      rw [hout n] at hq hn ⊢
      rw [hq, ih _ _ _ hn]

theorem sorted_perm_eq_keys :
    ∀ (l₁ l₂ : List (Nat × String)), l₁.Perm l₂ →
      List.Sorted (fun a b => strLe a.2 b.2 = true) l₁ →
      List.Sorted (fun a b => strLe a.2 b.2 = true) l₂ →
      (l₁.map Prod.snd).Nodup → l₁ = l₂ := by
  intro l₁
  induction l₁ with
  | nil =>
    intro l₂ hp _ _ _
    exact (hp.symm.eq_nil).symm
  | cons x xs ih =>
    intro l₂ hp hs₁ hs₂ hnd
    cases l₂ with
    | nil => exact absurd hp.eq_nil (by simp)
    | cons y ys =>
      have hxmem : x ∈ y :: ys := hp.mem_iff.mp (List.mem_cons_self x xs)
      have hymem : y ∈ x :: xs := hp.symm.mem_iff.mp (List.mem_cons_self y ys)
      have hxy : x = y := by
        rcases List.mem_cons.mp hxmem with h1 | h1
        · exact h1
        rcases List.mem_cons.mp hymem with h2 | h2
        · exact h2.symm
        have hyx : strLe y.2 x.2 = true := List.rel_of_sorted_cons hs₂ x h1
        have hxy' : strLe x.2 y.2 = true := List.rel_of_sorted_cons hs₁ y h2
        have hk : x.2 = y.2 := strLe_antisymm _ _ hxy' hyx
        exfalso
        simp only [List.map_cons, List.nodup_cons] at hnd
        exact hnd.1 (by rw [hk]; exact List.mem_map_of_mem Prod.snd h2)
      subst hxy
      rw [ih ys hp.cons_inv hs₁.of_cons hs₂.of_cons
        (by simpa using (List.nodup_cons.mp (by simpa using hnd)).2)]

theorem initQueue_perm (g₁ g₂ : PipelineDag) (direction : String)
    (hp : g₁.Perm g₂) (hnd : NodupKeys g₁) :
    initQueue g₁ direction = initQueue g₂ direction := by
  haveI ht : IsTotal (Nat × String) (fun a b => strLe a.2 b.2 = true) :=
    ⟨fun a b => strLe_total a.2 b.2⟩
  haveI htr : IsTrans (Nat × String) (fun a b => strLe a.2 b.2 = true) :=
    ⟨fun a b c => strLe_trans a.2 b.2 c.2⟩
  unfold initQueue
  congr 1
  apply sorted_perm_eq_keys
  · exact (List.perm_insertionSort _ _).trans
      (List.Perm.trans ((hp.filter _).map _) (List.perm_insertionSort _ _).symm)
  · exact List.sorted_insertionSort _ _
  · exact List.sorted_insertionSort _ _
  · have h1 : (((g₁.filter (fun p => (get_in_sets direction p.2).card == 0)).map
        (fun p => ((0 : Nat), p.1))).map Prod.snd).Nodup := by
      have hsub : List.Sublist (g₁.filter
          (fun p => (get_in_sets direction p.2).card == 0)) g₁ :=
        List.filter_sublist g₁
      have : ((g₁.filter (fun p => (get_in_sets direction p.2).card == 0)).map
          Prod.fst).Nodup :=
        List.Nodup.sublist (List.Sublist.map Prod.fst hsub) hnd
      simpa [Function.comp_def] using this
    exact ((List.perm_insertionSort _ _).map Prod.snd).nodup_iff.mpr h1

theorem traverse_nodes_perm (g₁ g₂ : PipelineDag) (direction : String)
    (hp : g₁.Perm g₂) (hnd : NodupKeys g₁) :
    traverse_nodes g₁ direction = traverse_nodes g₂ direction := by
  have hq : initQueue g₁ direction = initQueue g₂ direction :=
    initQueue_perm g₁ g₂ direction hp hnd
  have hw : intWeight (initNumIn g₁ direction) = intWeight (initNumIn g₂ direction) := by
    unfold intWeight initNumIn
    exact ((hp.map _).map _).sum_eq
  have hout : ∀ k, outList g₁ direction k = outList g₂ direction k := by
    intro k
    have hsk : sortKeyName g₁ = sortKeyName g₂ := funext (fun k' => by
      unfold sortKeyName
      rw [lookupNode_perm g₁ g₂ hp hnd k'])
    unfold outList
    rw [lookupNode_perm g₁ g₂ hp hnd k, hsk]
  have hnum : ∀ k, lookupInt (initNumIn g₁ direction) k
      = lookupInt (initNumIn g₂ direction) k := by
    intro k
    rw [lookupInt_initNumIn, lookupInt_initNumIn, lookupNode_perm g₁ g₂ hp hnd k]
  unfold traverse_nodes
  rw [hq]
  show traverseLoopF (outList g₁ direction)
      ((initQueue g₂ direction).length + intWeight (initNumIn g₁ direction))
      (initNumIn g₁ direction) (initQueue g₂ direction)
    = traverseLoopF (outList g₂ direction)
      ((initQueue g₂ direction).length + intWeight (initNumIn g₂ direction))
      (initNumIn g₂ direction) (initQueue g₂ direction)
  rw [hw]
  exact traverseLoopF_congr _ _ hout _ _ _ _ hnum

/-- C3 amended.  `traverse_nodes` yields first exactly the zero-in-edge
nodes, all at depth 0, in descending order of hash key (the initial queue is
sorted ascending by key — `item[1]` — and popped from the right), not in
ascending spec-name order; and the whole yielded order is a function of the
graph contents alone, identical for any reordering of the node dictionary. -/
theorem traverse_nodes_order (g g₂ : PipelineDag) (direction : String)
    (hperm : g.Perm g₂) (hnd : NodupKeys g) :
    (∃ suffix, traverse_nodes g direction = initQueue g direction ++ suffix)
    ∧ (∀ x ∈ initQueue g direction, x.1 = 0
        ∧ ∃ n, lookupNode g x.2 = some n ∧ get_in_sets direction n = ∅)
    ∧ List.Sorted (fun a b => strLe b.2 a.2 = true) (initQueue g direction)
    ∧ traverse_nodes g direction = traverse_nodes g₂ direction := by
  haveI ht : IsTotal (Nat × String) (fun a b => strLe a.2 b.2 = true) :=
    ⟨fun a b => strLe_total a.2 b.2⟩
  haveI htr : IsTrans (Nat × String) (fun a b => strLe a.2 b.2 = true) :=
    ⟨fun a b c => strLe_trans a.2 b.2 c.2⟩
  refine ⟨?_, ?_, ?_, traverse_nodes_perm g g₂ direction hperm hnd⟩
  · obtain ⟨suffix, hsuf⟩ := traverseLoopF_front (outList g direction)
      (initQueue g direction) [] (initNumIn g direction)
      ((initQueue g direction).length + intWeight (initNumIn g direction))
      (Nat.le_add_right _ _)
    exact ⟨suffix, by simpa using hsuf⟩
  · intro x hx
    have hx' : x ∈ (g.filter (fun p => (get_in_sets direction p.2).card == 0)).map
        (fun p => ((0 : Nat), p.1)) := by
      have h1 : x ∈ List.insertionSort (fun a b => strLe a.2 b.2 = true)
          ((g.filter (fun p => (get_in_sets direction p.2).card == 0)).map
            (fun p => ((0 : Nat), p.1))) := by
        simpa [initQueue] using hx
      exact (List.perm_insertionSort _ _).mem_iff.mp h1
    obtain ⟨p, hp, hpx⟩ := List.mem_map.mp hx'
    obtain ⟨hpg, hpcard⟩ := List.mem_filter.mp hp
    refine ⟨by rw [← hpx], p.2, ?_, ?_⟩
    · rw [← hpx]
      exact (lookupNode_mem_iff g p.1 p.2 hnd).mpr hpg
    · have : (get_in_sets direction p.2).card = 0 := by simpa using hpcard
      exact Finset.card_eq_zero.mp this
  · unfold initQueue
    rw [show (fun (a b : Nat × String) => strLe b.2 a.2 = true)
        = (fun a b => (fun x y => strLe x.2 y.2 = true) b a) from rfl]
    exact (List.pairwise_reverse).mpr
      (by simpa using List.sorted_insertionSort _ _)

/-- Witness for C3's amended claim, on a three-node diamond graph and a
reordering of it. -/
theorem traverse_nodes_order_witness :
    (∃ suffix, traverse_nodes
        [("k1", ⟨"alpha", ∅, {"k3"}⟩), ("k2", ⟨"beta", ∅, {"k3"}⟩),
         ("k3", ⟨"gamma", {"k1", "k2"}, ∅⟩)] "children"
      = initQueue
        [("k1", ⟨"alpha", ∅, {"k3"}⟩), ("k2", ⟨"beta", ∅, {"k3"}⟩),
         ("k3", ⟨"gamma", {"k1", "k2"}, ∅⟩)] "children" ++ suffix)
    ∧ traverse_nodes
        [("k1", ⟨"alpha", ∅, {"k3"}⟩), ("k2", ⟨"beta", ∅, {"k3"}⟩),
         ("k3", ⟨"gamma", {"k1", "k2"}, ∅⟩)] "children"
      = traverse_nodes
        [("k3", ⟨"gamma", {"k1", "k2"}, ∅⟩), ("k2", ⟨"beta", ∅, {"k3"}⟩),
         ("k1", ⟨"alpha", ∅, {"k3"}⟩)] "children" := by
  have h := traverse_nodes_order
    [("k1", ⟨"alpha", ∅, {"k3"}⟩), ("k2", ⟨"beta", ∅, {"k3"}⟩),
     ("k3", ⟨"gamma", {"k1", "k2"}, ∅⟩)]
    [("k3", ⟨"gamma", {"k1", "k2"}, ∅⟩), ("k2", ⟨"beta", ∅, {"k3"}⟩),
     ("k1", ⟨"alpha", ∅, {"k3"}⟩)] "children"
    (by decide) (by unfold NodupKeys; decide)
  exact ⟨h.1, h.2.2.2⟩

/-- The spec's per-node depth property relative to an already-yielded list:
the node is a starting node yielded at depth 0, or all its in-neighbors were
yielded earlier, at depths ≤ d-1 with at least one exactly d-1 (so d is one
more than the maximum depth among the predecessors that unlocked it). -/
def DOK (inn : String → Finset String) (done : List (Nat × String))
    (d : Nat) (k : String) : Prop :=
  (inn k = ∅ ∧ d = 0) ∨
  (inn k ≠ ∅ ∧ 1 ≤ d ∧ (∀ p ∈ inn k, ∃ dp, (dp, p) ∈ done ∧ dp + 1 ≤ d)
    ∧ (∃ p ∈ inn k, (d - 1, p) ∈ done))

theorem DOK_mono (inn : String → Finset String) (done done' : List (Nat × String))
    (hsub : ∀ x ∈ done, x ∈ done') (d : Nat) (k : String)
    (h : DOK inn done d k) : DOK inn done' d k := by
  rcases h with h | ⟨h1, h2, h3, p, hp, hpd⟩
  · exact Or.inl h
  · exact Or.inr ⟨h1, h2, fun q hq => by
      obtain ⟨dq, hdq, hb⟩ := h3 q hq
      exact ⟨dq, hsub _ hdq, hb⟩, p, hp, hsub _ hpd⟩

/-- A path of the given edge length from some zero-in-edge starting node to
`k`, following in-edges forward. -/
inductive PathLen (inn : String → Finset String) : String → Nat → Prop where
  | root (k : String) : inn k = ∅ → PathLen inn k 0
  | step (p k : String) (n : Nat) : PathLen inn p n → p ∈ inn k → PathLen inn k (n + 1)

/-- Every edge endpoint stored in a node's parent/children sets is itself a
key of the graph (guaranteed by `PipelineDag.__init__`'s construction from
the closed dependency relation). -/
def ClosedGraph (g : PipelineDag) : Prop :=
  ∀ k n, lookupNode g k = some n →
    (∀ c ∈ n.children, (lookupNode g c).isSome) ∧ (∀ p ∈ n.parents, (lookupNode g p).isSome)

/-- The loop invariant of the Kahn traversal: keys are yielded at most once,
counters track in-degree minus yielded in-neighbors, every yielded or queued
pair satisfies the depth property, yielded-then-queued depths are
non-decreasing, and queued depths lie within one of each other. -/
structure KahnInv (inn : String → Finset String) (done queue : List (Nat × String))
    (numIn : List (String × Int)) : Prop where
  nodup : (done.map Prod.snd ++ queue.map Prod.snd).Nodup
  keysNodup : (numIn.map Prod.fst).Nodup
  counters : ∀ k c, lookupInt numIn k = some c →
    c = ((inn k).card : Int)
      - (((inn k).filter (fun p => p ∈ done.map Prod.snd)).card : Int)
  doneOK : ∀ x ∈ done, DOK inn done x.1 x.2
  queueOK : ∀ x ∈ queue, DOK inn done x.1 x.2
  sortedD : List.Sorted (· ≤ ·) ((done ++ queue).map Prod.fst)
  bound : ∀ x ∈ queue, ∀ y ∈ queue, x.1 ≤ y.1 + 1

theorem lookupInt_map_value (l : List (String × Int)) (f : String → Int → Int)
    (k : String) :
    lookupInt (l.map (fun p => (p.1, f p.1 p.2))) k = (lookupInt l k).map (f k) := by
  induction l with
  | nil => rfl
  | cons p rest ih =>
    obtain ⟨pk', v⟩ := p
    by_cases hk : pk' = k
    · subst hk
      simp [lookupInt]
    · simp [lookupInt, hk, ih]

theorem updateInt_dec_map (numIn : List (String × Int)) (m : String)
    (h : (numIn.map Prod.fst).Nodup) :
    updateInt numIn m ((lookupInt numIn m).getD 0 - 1)
      = numIn.map (fun p => (p.1, if p.1 = m then p.2 - 1 else p.2)) := by
  induction numIn with
  | nil => rfl
  | cons p rest ih =>
    obtain ⟨pk', v⟩ := p
    simp only [List.map_cons, List.nodup_cons] at h
    by_cases hk : pk' = m
    · subst hk
      have hrest : List.map (fun (p : String × Int) =>
          (p.1, if p.1 = pk' then p.2 - 1 else p.2)) rest = rest := by
        have h1 : ∀ q ∈ rest, (fun (p : String × Int) =>
            (p.1, if p.1 = pk' then p.2 - 1 else p.2)) q = id q := by
          intro q hq
          have hne : ¬ q.1 = pk' := fun hq1 => h.1 (hq1 ▸ List.mem_map_of_mem Prod.fst hq)
          simp [hne]
        rw [List.map_congr_left h1, List.map_id]
      simp [lookupInt, updateInt, hrest]
    · simp only [lookupInt, if_neg hk, updateInt, List.map_cons, if_neg hk]
      rw [ih h.2]

theorem lookupInt_dec_map (numIn : List (String × Int)) (m k : String) :
    lookupInt (numIn.map (fun p => (p.1, if p.1 = m then p.2 - 1 else p.2))) k
      = (lookupInt numIn k).map (fun v => if k = m then v - 1 else v) := by
  induction numIn with
  | nil => rfl
  | cons p rest ih =>
    obtain ⟨pk', v⟩ := p
    by_cases hk : pk' = k
    · subst hk
      simp [lookupInt]
    · simp [lookupInt, hk, ih]

theorem decrementEdges_spec (out : List String) :
    ∀ (numIn : List (String × Int)) (depth : Nat) (queue : List (Nat × String)),
      out.Nodup → (numIn.map Prod.fst).Nodup →
      decrementEdges out numIn depth queue
        = (numIn.map (fun p => (p.1, if p.1 ∈ out then p.2 - 1 else p.2)),
           queue ++ (out.filter
              (fun m => ((lookupInt numIn m).getD 0) - 1 = 0)).map
             (fun m => (depth + 1, m))) := by
  induction out with
  | nil =>
    intro numIn depth queue _ _
    have hid : List.map (fun (p : String × Int) =>
        (p.1, if p.1 ∈ ([] : List String) then p.2 - 1 else p.2)) numIn = numIn := by
      have h1 : ∀ q ∈ numIn, (fun (p : String × Int) =>
          (p.1, if p.1 ∈ ([] : List String) then p.2 - 1 else p.2)) q = id q := by
        intro q hq
        simp
      rw [List.map_congr_left h1, List.map_id]
    simp [decrementEdges, hid]
  | cons m rest ih =>
    intro numIn depth queue hond hknd
    simp only [List.nodup_cons] at hond
    rw [decrementEdges_cons, updateInt_dec_map numIn m hknd]
    have hknd' : ((numIn.map (fun p =>
        (p.1, if p.1 = m then p.2 - 1 else p.2))).map Prod.fst).Nodup := by
      simpa [Function.comp_def] using hknd
    rw [ih _ depth _ hond.2 hknd']
    rw [Prod.mk.injEq]
    constructor
    · -- the counter maps compose
      rw [List.map_map]
      apply List.map_congr_left
      intro q hq
      by_cases h1 : q.1 = m
      · have h2 : q.1 ∉ rest := h1 ▸ hond.1
        simp [Function.comp_def, h1, h2, hond.1]
      · simp [Function.comp_def, h1]
    · -- the enqueued entries agree
      have hlk : ∀ m' ∈ rest, lookupInt (numIn.map (fun p =>
          (p.1, if p.1 = m then p.2 - 1 else p.2))) m' = lookupInt numIn m' := by
        intro m' hm'
        have hne : m' ≠ m := fun hh => hond.1 (hh ▸ hm')
        rw [lookupInt_dec_map]
        cases lookupInt numIn m' with
        | none => rfl
        | some c => simp [hne]
      have hfilter : rest.filter (fun m' =>
            ((lookupInt (numIn.map (fun p =>
              (p.1, if p.1 = m then p.2 - 1 else p.2))) m').getD 0) - 1 = 0)
          = rest.filter (fun m' => ((lookupInt numIn m').getD 0) - 1 = 0) := by
        apply List.filter_congr
        intro m' hm'
        rw [hlk m' hm']
      rw [hfilter]
      by_cases h : ((lookupInt numIn m).getD 0) - 1 = 0
      · simp [List.filter_cons, h, List.append_assoc]
      · simp [List.filter_cons, h]

theorem intWeight_updateInt (numIn : List (String × Int)) (m : String) (w : Int)
    (v : Int) (h : lookupInt numIn m = some v) :
    intWeight (updateInt numIn m w) + v.toNat = intWeight numIn + w.toNat := by
  induction numIn with
  | nil => cases h
  | cons p rest ih =>
    obtain ⟨pk', pv⟩ := p
    by_cases hk : pk' = m
    · subst hk
      have hpv : pv = v := by simpa [lookupInt] using h
      subst hpv
      simp [updateInt, intWeight]
      omega
    · simp only [lookupInt, if_neg hk] at h
      simp only [updateInt, if_neg hk, intWeight, List.map_cons, List.sum_cons]
      have := ih h
      simp only [intWeight] at this
      omega

theorem updateInt_not_mem (numIn : List (String × Int)) (m : String) (w : Int)
    (h : lookupInt numIn m = none) : updateInt numIn m w = numIn := by
  induction numIn with
  | nil => rfl
  | cons p rest ih =>
    obtain ⟨pk', pv⟩ := p
    by_cases hk : pk' = m
    · simp [lookupInt, hk] at h
    · simp only [lookupInt, if_neg hk] at h
      simp [updateInt, hk, ih h]

theorem decrementEdges_measure (out : List String) :
    ∀ (numIn : List (String × Int)) (depth : Nat) (queue : List (Nat × String)),
      (decrementEdges out numIn depth queue).2.length
          + intWeight (decrementEdges out numIn depth queue).1
        ≤ queue.length + intWeight numIn := by
  induction out with
  | nil => intro numIn depth queue; simp [decrementEdges]
  | cons m rest ih =>
    intro numIn depth queue
    rw [decrementEdges_cons]
    cases hlk : lookupInt numIn m with
    | none =>
      have hc : ¬ ((none : Option Int).getD 0) - 1 = 0 := by decide
      rw [if_neg hc, updateInt_not_mem numIn m _ hlk]
      exact ih numIn depth queue
    | some v =>
      simp only [Option.getD_some]
      have hw := intWeight_updateInt numIn m (v - 1) v hlk
      by_cases hc : v - 1 = 0
      · rw [if_pos hc]
        have hih := ih (updateInt numIn m (v - 1)) depth (queue ++ [(depth + 1, m)])
        simp only [List.length_append, List.length_cons, List.length_nil] at hih ⊢
        omega
      · rw [if_neg hc]
        have hih := ih (updateInt numIn m (v - 1)) depth queue
        omega

theorem lookupInt_decList_map (numIn : List (String × Int)) (out : List String)
    (k : String) :
    lookupInt (numIn.map (fun p => (p.1, if p.1 ∈ out then p.2 - 1 else p.2))) k
      = (lookupInt numIn k).map (fun v => if k ∈ out then v - 1 else v) := by
  induction numIn with
  | nil => rfl
  | cons p rest ih =>
    obtain ⟨pk', v⟩ := p
    by_cases hk : pk' = k
    · subst hk
      simp [lookupInt]
    · simp [lookupInt, hk, ih]

theorem sorted_const_le (c : Nat) (l : List String) :
    List.Sorted (· ≤ ·) (l.map (fun _ => c)) := by
  induction l with
  | nil => simp
  | cons x xs ih =>
    rw [List.map_cons, List.sorted_cons]
    exact ⟨fun b hb => by
      obtain ⟨_, _, hb⟩ := List.mem_map.mp hb
      omega, ih⟩

/-- Counters of keys already yielded or queued are zero (their in-neighbors
are all yielded, or they are roots). -/
theorem member_counter_zero (inn : String → Finset String)
    (done : List (Nat × String)) (numIn : List (String × Int))
    (hcounters : ∀ k c, lookupInt numIn k = some c →
      c = ((inn k).card : Int)
        - (((inn k).filter (fun p => p ∈ done.map Prod.snd)).card : Int))
    (x : Nat × String) (hdok : DOK inn done x.1 x.2)
    (c : Int) (hc : lookupInt numIn x.2 = some c) : c = 0 := by
  have hfull : (inn x.2).filter (fun p => p ∈ done.map Prod.snd) = inn x.2 := by
    rcases hdok with ⟨hroot, _⟩ | ⟨_, _, hall, _⟩
    · rw [hroot]
      rfl
    · apply Finset.filter_eq_self.mpr
      intro p hp
      obtain ⟨dp, hdp, _⟩ := hall p hp
      simpa using List.mem_map_of_mem Prod.snd hdp
  rw [hcounters x.2 c hc, hfull]
  omega

theorem kahnStep (inn : String → Finset String) (out : String → List String)
    (Hmut : ∀ k m, m ∈ out k ↔ k ∈ inn m)
    (Hond : ∀ k, (out k).Nodup)
    (done rest : List (Nat × String)) (numIn : List (String × Int))
    (d : Nat) (n : String)
    (inv : KahnInv inn done ((d, n) :: rest) numIn) :
    KahnInv inn (done ++ [(d, n)])
      (decrementEdges (out n) numIn d rest).2
      (decrementEdges (out n) numIn d rest).1 := by
  rw [decrementEdges_spec (out n) numIn d rest (Hond n) inv.keysNodup]
  set F := (out n).filter (fun m => ((lookupInt numIn m).getD 0) - 1 = 0) with hFdef
  set E := F.map (fun m => (d + 1, m)) with hEdef
  have hF0 : ∀ m ∈ F, lookupInt numIn m = some 1 := by
    intro m hm
    have hcond := (List.mem_filter.mp hm).2
    cases hlk : lookupInt numIn m with
    | none => rw [hlk] at hcond; simp at hcond
    | some c =>
      rw [hlk] at hcond
      simp only [Option.getD_some, decide_eq_true_eq] at hcond
      rw [show c = 1 from by omega]
  have hmemF : ∀ m ∈ F, m ∈ out n := fun m hm => (List.mem_filter.mp hm).1
  have hFnodup : F.Nodup := (Hond n).filter _
  have hfresh : ∀ m ∈ F, m ∉ (done ++ (d, n) :: rest).map Prod.snd := by
    intro m hm hmem
    obtain ⟨x, hx, hxm⟩ := List.mem_map.mp hmem
    have hdok : DOK inn done x.1 x.2 := by
      rcases List.mem_append.mp hx with hx' | hx'
      · exact inv.doneOK x hx'
      · exact inv.queueOK x hx'
    have := member_counter_zero inn done numIn inv.counters x hdok 1 (hxm ▸ hF0 m hm)
    omega
  have hsortOrig : List.Pairwise (· ≤ ·)
      (done.map Prod.fst ++ d :: rest.map Prod.fst) := by
    have := inv.sortedD
    simpa using this
  have hdoneLe : ∀ x ∈ done, x.1 ≤ d := by
    intro x hx
    exact (List.pairwise_append.mp hsortOrig).2.2 x.1
      (List.mem_map_of_mem Prod.fst hx) d (by simp)
  have hrestGe : ∀ x ∈ rest, d ≤ x.1 := by
    intro x hx
    exact List.rel_of_pairwise_cons (List.pairwise_append.mp hsortOrig).2.1
      (List.mem_map_of_mem Prod.fst hx)
  have hrestLe : ∀ x ∈ rest, x.1 ≤ d + 1 := by
    intro x hx
    exact inv.bound x (by simp [hx]) (d, n) (by simp)
  have hnNotDone : n ∉ done.map Prod.snd := by
    intro hmem
    have hdisj := (List.nodup_append.mp inv.nodup).2.2
    exact hdisj hmem (by simp)
  have hEfst : ∀ x ∈ E, x.1 = d + 1 := by
    intro x hx
    obtain ⟨m, _, hxm⟩ := List.mem_map.mp hx
    rw [← hxm]
  have hEsnd : E.map Prod.snd = F := by
    rw [hEdef, List.map_map]
    exact List.map_id _
  have hcounters' : ∀ k c, lookupInt (numIn.map
      (fun p => (p.1, if p.1 ∈ out n then p.2 - 1 else p.2))) k = some c →
      c = ((inn k).card : Int)
        - (((inn k).filter
            (fun p => p ∈ (done ++ [(d, n)]).map Prod.snd)).card : Int) := by
    intro k c hc
    rw [lookupInt_decList_map] at hc
    cases hlk : lookupInt numIn k with
    | none => rw [hlk] at hc; cases hc
    | some c0 =>
      rw [hlk] at hc
      simp only [Option.map_some'] at hc
      have hc' := Option.some.inj hc
      have hc0 := inv.counters k c0 hlk
      have hfsplit : ((inn k).filter
            (fun p => p ∈ (done ++ [(d, n)]).map Prod.snd)).card
          = ((inn k).filter (fun p => p ∈ done.map Prod.snd)).card
            + (if n ∈ inn k then 1 else 0) := by
        have heq : (inn k).filter (fun p => p ∈ (done ++ [(d, n)]).map Prod.snd)
            = (inn k).filter (fun p => p ∈ done.map Prod.snd)
              ∪ (inn k).filter (fun p => p = n) := by
          rw [← Finset.filter_or]
          apply Finset.filter_congr
          intro p _
          simp
        have hdisjf : Disjoint ((inn k).filter (fun p => p ∈ done.map Prod.snd))
            ((inn k).filter (fun p => p = n)) := by
          rw [Finset.disjoint_left]
          intro a ha hb
          have ha' := (Finset.mem_filter.mp ha).2
          have hb' := (Finset.mem_filter.mp hb).2
          exact hnNotDone (hb' ▸ ha')
        rw [heq, Finset.card_union_of_disjoint hdisjf, Finset.filter_eq']
        by_cases hn : n ∈ inn k <;> simp [hn]
      have hiff : k ∈ out n ↔ n ∈ inn k := Hmut n k
      by_cases hkn : k ∈ out n
      · rw [if_pos hkn] at hc'
        rw [hfsplit, if_pos (hiff.mp hkn)]
        push_cast
        omega
      · rw [if_neg hkn] at hc'
        rw [hfsplit, if_neg (fun hn => hkn (hiff.mpr hn))]
        push_cast
        omega
  have hdoneLe' : ∀ x ∈ done ++ [(d, n)], x.1 ≤ d := by
    intro x hx
    rcases List.mem_append.mp hx with hx' | hx'
    · exact hdoneLe x hx'
    · simp only [List.mem_singleton] at hx'
      rw [hx']
  refine ⟨?_, ?_, hcounters', ?_, ?_, ?_, ?_⟩
  · -- nodup
    have horig' : (done.map Prod.snd ++ n :: rest.map Prod.snd).Nodup := by
      simpa using inv.nodup
    have hdisjF : (done.map Prod.snd ++ n :: rest.map Prod.snd).Disjoint F := by
      intro a ha haF
      exact hfresh a haF (by simpa using ha)
    have hnodupT : ((done.map Prod.snd ++ n :: rest.map Prod.snd) ++ F).Nodup :=
      List.Nodup.append horig' hFnodup hdisjF
    have hT : (done ++ [(d, n)]).map Prod.snd ++ (rest ++ E).map Prod.snd
        = (done.map Prod.snd ++ n :: rest.map Prod.snd) ++ F := by
      rw [List.map_append, List.map_append, hEsnd]
      simp [List.append_assoc]
    rw [hT]
    exact hnodupT
  · -- keysNodup
    have := inv.keysNodup
    simpa [Function.comp_def] using this
  · -- doneOK
    intro x hx
    rcases List.mem_append.mp hx with hx' | hx'
    · exact DOK_mono inn done _ (fun y hy => List.mem_append_left _ hy) x.1 x.2
        (inv.doneOK x hx')
    · simp only [List.mem_singleton] at hx'
      subst hx'
      exact DOK_mono inn done _ (fun y hy => List.mem_append_left _ hy) d n
        (inv.queueOK (d, n) (by simp))
  · -- queueOK
    intro x hx
    rcases List.mem_append.mp hx with hx' | hx'
    · exact DOK_mono inn done _ (fun y hy => List.mem_append_left _ hy) x.1 x.2
        (inv.queueOK x (by simp [hx']))
    · obtain ⟨m, hmF, hxm⟩ := List.mem_map.mp hx'
      subst hxm
      have hinnm : n ∈ inn m := (Hmut n m).mp (hmemF m hmF)
      have hne : inn m ≠ ∅ := Finset.ne_empty_of_mem hinnm
      have hlk' : lookupInt (numIn.map
          (fun p => (p.1, if p.1 ∈ out n then p.2 - 1 else p.2))) m = some 0 := by
        rw [lookupInt_decList_map, hF0 m hmF]
        simp [hmemF m hmF]
      have h0 := hcounters' m 0 hlk'
      have hsub : (inn m).filter (fun p => p ∈ (done ++ [(d, n)]).map Prod.snd)
          = inn m := by
        apply Finset.eq_of_subset_of_card_le (Finset.filter_subset _ _)
        have hcard := Finset.card_filter_le (inn m)
          (fun p => p ∈ (done ++ [(d, n)]).map Prod.snd)
        omega
      refine Or.inr ⟨hne, by omega, ?_, n, hinnm, ?_⟩
      · intro p hp
        have hpdone : p ∈ (done ++ [(d, n)]).map Prod.snd := by
          have := Finset.filter_eq_self.mp hsub p hp
          simpa using this
        obtain ⟨y, hy, hyp⟩ := List.mem_map.mp hpdone
        exact ⟨y.1, by rw [← hyp]; simpa using hy, by
          have := hdoneLe' y hy
          omega⟩
      · have : d + 1 - 1 = d := rfl
        rw [this]
        simp
  · -- sortedD
    have hXE : ((done ++ [(d, n)]) ++ (rest ++ E)).map Prod.fst
        = (done.map Prod.fst ++ d :: rest.map Prod.fst) ++ E.map Prod.fst := by
      simp [List.append_assoc]
    show List.Sorted (· ≤ ·) (((done ++ [(d, n)]) ++ (rest ++ E)).map Prod.fst)
    rw [hXE]
    apply List.pairwise_append.mpr
    refine ⟨hsortOrig, ?_, ?_⟩
    · have : E.map Prod.fst = F.map (fun _ => d + 1) := by
        rw [hEdef, List.map_map]
        rfl
      rw [this]
      exact sorted_const_le (d + 1) F
    · intro a ha b hb
      have hb' : b = d + 1 := by
        obtain ⟨x, hx, hxb⟩ := List.mem_map.mp hb
        rw [← hxb, hEfst x hx]
      rcases List.mem_append.mp ha with ha' | ha'
      · obtain ⟨x, hx, hxa⟩ := List.mem_map.mp ha'
        have := hdoneLe x hx
        omega
      · rcases List.mem_cons.mp ha' with ha'' | ha''
        · omega
        · obtain ⟨x, hx, hxa⟩ := List.mem_map.mp ha''
          have := hrestLe x hx
          omega
  · -- bound
    intro x hx y hy
    rcases List.mem_append.mp hx with hx' | hx' <;>
      rcases List.mem_append.mp hy with hy' | hy'
    · exact inv.bound x (by simp [hx']) y (by simp [hy'])
    · have := hrestLe x hx'
      have := hEfst y hy'
      omega
    · have := hEfst x hx'
      have := hrestGe y hy'
      omega
    · have := hEfst x hx'
      have := hEfst y hy'
      omega

theorem traverseLoopF_kahn (inn : String → Finset String) (out : String → List String)
    (Hmut : ∀ k m, m ∈ out k ↔ k ∈ inn m)
    (Hond : ∀ k, (out k).Nodup) :
    ∀ (fuel : Nat) (numIn : List (String × Int)) (queue done : List (Nat × String)),
      KahnInv inn done queue numIn →
      queue.length + intWeight numIn ≤ fuel →
      ((done ++ traverseLoopF out fuel numIn queue).map Prod.snd).Nodup
      ∧ ∀ x ∈ done ++ traverseLoopF out fuel numIn queue,
          DOK inn (done ++ traverseLoopF out fuel numIn queue) x.1 x.2 := by
  intro fuel
  induction fuel with
  | zero =>
    intro numIn queue done inv hfuel
    have hq : queue = [] := by
      cases queue with
      | nil => rfl
      | cons hd tl => simp at hfuel
    subst hq
    constructor
    · simpa [show traverseLoopF out 0 numIn [] = [] from rfl] using inv.nodup
    · simp only [show traverseLoopF out 0 numIn [] = [] from rfl, List.append_nil]
      exact inv.doneOK
  | succ f ih =>
    intro numIn queue done inv hfuel
    cases queue with
    | nil =>
      constructor
      · simpa [show traverseLoopF out (f + 1) numIn [] = [] from rfl] using inv.nodup
      · simp only [show traverseLoopF out (f + 1) numIn [] = [] from rfl, List.append_nil]
        exact inv.doneOK
    | cons hd tl =>
      obtain ⟨d, n⟩ := hd
      have hstep := kahnStep inn out Hmut Hond done tl numIn d n inv
      have hmeas := decrementEdges_measure (out n) numIn d tl
      have hfuel' : (decrementEdges (out n) numIn d tl).2.length
          + intWeight (decrementEdges (out n) numIn d tl).1 ≤ f := by
        simp only [List.length_cons] at hfuel
        omega
      have hrec := ih (decrementEdges (out n) numIn d tl).1
        (decrementEdges (out n) numIn d tl).2 (done ++ [(d, n)]) hstep hfuel'
      have hL : done ++ traverseLoopF out (f + 1) numIn ((d, n) :: tl)
          = (done ++ [(d, n)]) ++ traverseLoopF out f
              (decrementEdges (out n) numIn d tl).1
              (decrementEdges (out n) numIn d tl).2 := by
        show done ++ ((d, n) :: traverseLoopF out f _ _) = _
        simp [List.append_assoc]
      rw [hL]
      exact hrec

theorem pathlen_of_DOK (inn : String → Finset String) (L : List (Nat × String))
    (hall : ∀ x ∈ L, DOK inn L x.1 x.2) :
    ∀ d k, (d, k) ∈ L → PathLen inn k d ∧ ∀ nn, PathLen inn k nn → nn ≤ d := by
  have hex : ∀ d k, (d, k) ∈ L → PathLen inn k d := by
    intro d
    induction d using Nat.strong_induction_on with
    | _ d ihd =>
      intro k hk
      rcases hall (d, k) hk with ⟨hroot, hd0⟩ | ⟨hne, h1, hallp, p, hp, hpd⟩
      · subst hd0
        exact PathLen.root k hroot
      · have hplt : d - 1 < d := by omega
        have hpl := ihd (d - 1) hplt p hpd
        have hstep := PathLen.step p k (d - 1) hpl hp
        rwa [show d - 1 + 1 = d from by omega] at hstep
  have hub : ∀ k nn, PathLen inn k nn → ∀ d, (d, k) ∈ L → nn ≤ d := by
    intro k nn hpl
    induction hpl with
    | root k h => exact fun d _ => Nat.zero_le d
    | step p k n hpl hp ihp =>
      intro d hd
      rcases hall (d, k) hd with ⟨hroot, _⟩ | ⟨_, h1, hallp, _⟩
      · exact absurd hp (by rw [hroot]; simp)
      · obtain ⟨dp, hdp, hb⟩ := hallp p hp
        have := ihp dp hdp
        omega
  exact fun d k hk => ⟨hex d k hk, fun nn hpl => hub k nn hpl d hk⟩

theorem setToList_mem (s : Finset String) (a : String) :
    a ∈ setToList s ↔ a ∈ s := by
  obtain ⟨val, hnodup⟩ := s
  obtain ⟨l⟩ := val
  show a ∈ List.insertionSort _ l ↔ _
  rw [(List.perm_insertionSort _ l).mem_iff]
  simp [Finset.mem_mk]

theorem setToList_nodup (s : Finset String) : (setToList s).Nodup := by
  obtain ⟨val, hnodup⟩ := s
  obtain ⟨l⟩ := val
  show (List.insertionSort _ l).Nodup
  exact (List.perm_insertionSort _ l).nodup_iff.mpr hnodup

theorem outList_nodup (g : PipelineDag) (direction : String) (k : String) :
    (outList g direction k).Nodup := by
  unfold outList
  cases lookupNode g k with
  | none => exact List.nodup_nil
  | some n =>
    exact (List.perm_insertionSort _ _).nodup_iff.mpr (setToList_nodup _)

theorem outList_mem (g : PipelineDag) (direction : String) (k m : String) :
    m ∈ outList g direction k
      ↔ ∃ n, lookupNode g k = some n ∧ m ∈ get_out_sets direction n := by
  unfold outList
  cases lookupNode g k with
  | none => simp
  | some n =>
    rw [(List.perm_insertionSort _ _).mem_iff, setToList_mem]
    simp

theorem mut_of_graph (g : PipelineDag) (direction : String)
    (hmut : EdgesMutual g) (hcl : ClosedGraph g) :
    ∀ k m, m ∈ outList g direction k ↔ k ∈ inSet g direction m := by
  intro k m
  rw [outList_mem]
  unfold inSet
  by_cases hdir : direction = "children"
  · simp only [get_out_sets, get_in_sets, hdir, if_pos rfl]
    constructor
    · rintro ⟨n, hn, hmout⟩
      have hsome := ((hcl k n hn).1 m hmout)
      obtain ⟨nm, hnm⟩ := Option.isSome_iff_exists.mp hsome
      rw [hnm]
      exact (hmut k n m nm hn hnm).mp hmout
    · intro hk
      cases hnm : lookupNode g m with
      | none => rw [hnm] at hk; cases hk
      | some nm =>
        rw [hnm] at hk
        have hsome := (hcl m nm hnm).2 k hk
        obtain ⟨n, hn⟩ := Option.isSome_iff_exists.mp hsome
        exact ⟨n, hn, (hmut k n m nm hn hnm).mpr hk⟩
  · simp only [get_out_sets, get_in_sets, hdir, if_neg hdir]
    constructor
    · rintro ⟨n, hn, hmout⟩
      have hsome := ((hcl k n hn).2 m hmout)
      obtain ⟨nm, hnm⟩ := Option.isSome_iff_exists.mp hsome
      rw [hnm]
      exact (hmut m nm k n hnm hn).mpr hmout
    · intro hk
      cases hnm : lookupNode g m with
      | none => rw [hnm] at hk; cases hk
      | some nm =>
        rw [hnm] at hk
        have hsome := (hcl m nm hnm).1 k hk
        obtain ⟨n, hn⟩ := Option.isSome_iff_exists.mp hsome
        exact ⟨n, hn, (hmut m nm k n hnm hn).mp hk⟩

theorem sorted_of_all_zero : ∀ (l : List Nat), (∀ a ∈ l, a = 0) →
    List.Sorted (· ≤ ·) l := by
  intro l
  induction l with
  | nil => intro _; simp
  | cons x xs ih =>
    intro h
    rw [List.sorted_cons]
    refine ⟨fun b hb => ?_, ih (fun a ha => h a (by simp [ha]))⟩
    rw [h x (by simp), h b (by simp [hb])]

theorem initQueue_mem_root (g : PipelineDag) (direction : String)
    (hnd : NodupKeys g) :
    ∀ x ∈ initQueue g direction, x.1 = 0
      ∧ ∃ n, lookupNode g x.2 = some n ∧ get_in_sets direction n = ∅ := by
  intro x hx
  have hx' : x ∈ (g.filter (fun p => (get_in_sets direction p.2).card == 0)).map
      (fun p => ((0 : Nat), p.1)) := by
    have h1 : x ∈ List.insertionSort (fun a b => strLe a.2 b.2 = true)
        ((g.filter (fun p => (get_in_sets direction p.2).card == 0)).map
          (fun p => ((0 : Nat), p.1))) := by
      simpa [initQueue] using hx
    exact (List.perm_insertionSort _ _).mem_iff.mp h1
  obtain ⟨p, hp, hpx⟩ := List.mem_map.mp hx'
  obtain ⟨hpg, hpcard⟩ := List.mem_filter.mp hp
  refine ⟨by rw [← hpx], p.2, ?_, ?_⟩
  · rw [← hpx]
    exact (lookupNode_mem_iff g p.1 p.2 hnd).mpr hpg
  · have : (get_in_sets direction p.2).card = 0 := by simpa using hpcard
    exact Finset.card_eq_zero.mp this

theorem initQueue_keys_nodup (g : PipelineDag) (direction : String)
    (hnd : NodupKeys g) : ((initQueue g direction).map Prod.snd).Nodup := by
  unfold initQueue
  rw [List.map_reverse, List.nodup_reverse]
  have h1 : (((g.filter (fun p => (get_in_sets direction p.2).card == 0)).map
      (fun p => ((0 : Nat), p.1))).map Prod.snd).Nodup := by
    have hsub : List.Sublist (g.filter
        (fun p => (get_in_sets direction p.2).card == 0)) g :=
      List.filter_sublist g
    have : ((g.filter (fun p => (get_in_sets direction p.2).card == 0)).map
        Prod.fst).Nodup :=
      List.Nodup.sublist (List.Sublist.map Prod.fst hsub) hnd
    simpa [Function.comp_def] using this
  exact ((List.perm_insertionSort _ _).map Prod.snd).nodup_iff.mpr h1

theorem kahnInit (g : PipelineDag) (direction : String) (hnd : NodupKeys g) :
    KahnInv (inSet g direction) [] (initQueue g direction) (initNumIn g direction) := by
  refine ⟨?_, ?_, ?_, ?_, ?_, ?_, ?_⟩
  · simpa using initQueue_keys_nodup g direction hnd
  · simpa [initNumIn, Function.comp_def] using hnd
  · intro k c hc
    rw [lookupInt_initNumIn] at hc
    cases hlk : lookupNode g k with
    | none => rw [hlk] at hc; cases hc
    | some n =>
      rw [hlk] at hc
      simp only [Option.map_some'] at hc
      have hc' := Option.some.inj hc
      have hempty : (inSet g direction k).filter
          (fun p => p ∈ ([] : List (Nat × String)).map Prod.snd) = ∅ := by
        apply Finset.filter_false_of_mem
        intro p _
        simp
      rw [hempty]
      simp [inSet, hlk, ← hc']
  · intro x hx
    cases hx
  · intro x hx
    obtain ⟨h0, n, hn, hempty⟩ := initQueue_mem_root g direction hnd x hx
    exact Or.inl ⟨by simp [inSet, hn, hempty], h0⟩
  · apply sorted_of_all_zero
    intro a ha
    simp only [List.nil_append, List.mem_map] at ha
    obtain ⟨x, hx, hxa⟩ := ha
    rw [← hxa]
    exact (initQueue_mem_root g direction hnd x hx).1
  · intro x hx y hy
    rw [(initQueue_mem_root g direction hnd x hx).1]
    omega

theorem traverse_nodes_DOK (g : PipelineDag) (direction : String)
    (hnd : NodupKeys g) (hmut : EdgesMutual g) (hcl : ClosedGraph g) :
    ((traverse_nodes g direction).map Prod.snd).Nodup
    ∧ ∀ x ∈ traverse_nodes g direction,
        DOK (inSet g direction) (traverse_nodes g direction) x.1 x.2 := by
  have h := traverseLoopF_kahn (inSet g direction) (outList g direction)
    (mut_of_graph g direction hmut hcl) (outList_nodup g direction)
    ((initQueue g direction).length + intWeight (initNumIn g direction))
    (initNumIn g direction) (initQueue g direction) []
    (kahnInit g direction hnd) (le_refl _)
  simpa [traverse_nodes] using h

/-- C5.  Every yielded `(depth, key)` pair of `traverse_nodes` satisfies:
depth 0 exactly for the zero-in-edge starting nodes; otherwise every
in-neighbor is yielded earlier at a depth ≤ depth-1, and some in-neighbor is
yielded exactly at depth-1 (so the depth is one more than the maximum depth
among the predecessors that unlocked the node); and the depth equals the
length of the longest in-edge path from a starting node to the node. -/
theorem traverse_nodes_depth (g : PipelineDag) (direction : String)
    (hnd : NodupKeys g) (hmut : EdgesMutual g) (hcl : ClosedGraph g)
    (d : Nat) (k : String) (hdk : (d, k) ∈ traverse_nodes g direction) :
    ((traverse_nodes g direction).map Prod.snd).Nodup
    ∧ (d = 0 ↔ inSet g direction k = ∅)
    ∧ (∀ p ∈ inSet g direction k,
        ∃ dp, (dp, p) ∈ traverse_nodes g direction ∧ dp + 1 ≤ d)
    ∧ (inSet g direction k ≠ ∅ →
        ∃ p ∈ inSet g direction k, (d - 1, p) ∈ traverse_nodes g direction)
    ∧ PathLen (inSet g direction) k d
    ∧ (∀ nn, PathLen (inSet g direction) k nn → nn ≤ d) := by
  obtain ⟨hnodup, hall⟩ := traverse_nodes_DOK g direction hnd hmut hcl
  have hdok := hall (d, k) hdk
  have hpl := pathlen_of_DOK (inSet g direction) (traverse_nodes g direction)
    hall d k hdk
  refine ⟨hnodup, ?_, ?_, ?_, hpl.1, hpl.2⟩
  · constructor
    · intro h0
      rcases hdok with ⟨hroot, _⟩ | ⟨_, h1, _, _⟩
      · exact hroot
      · omega
    · intro hempty
      rcases hdok with ⟨_, h0⟩ | ⟨hne, _⟩
      · exact h0
      · exact absurd hempty hne
  · intro p hp
    rcases hdok with ⟨hroot, _⟩ | ⟨_, _, hallp, _⟩
    · rw [hroot] at hp
      exact absurd hp (Finset.not_mem_empty p)
    · exact hallp p hp
  · intro hne
    rcases hdok with ⟨hroot, _⟩ | ⟨_, _, _, p, hp, hpd⟩
    · exact absurd hroot hne
    · exact ⟨p, hp, hpd⟩

theorem chainABC_closed : ClosedGraph chainABC := by
  intro k n h
  rcases chainABC_lookup k n h with ⟨rfl, rfl⟩ | ⟨rfl, rfl⟩ | ⟨rfl, rfl⟩ <;>
    exact ⟨by decide, by decide⟩

/-- Witness for C5: on the chain A→B→C traversed from the roots, node C is
yielded at depth 2, the length of the longest path from the root A. -/
theorem traverse_nodes_depth_witness :
    ((traverse_nodes chainABC "children").map Prod.snd).Nodup
    ∧ PathLen (inSet chainABC "children") "C" 2 := by
  have h := traverse_nodes_depth chainABC "children"
    (by unfold NodupKeys; decide) chainABC_mutual chainABC_closed 2 "C" (by decide)
  exact ⟨h.1, h.2.2.2.2.1⟩

/-- `SPACK_RESERVED_TAGS` (`ci/common.py`). -/
def SPACK_RESERVED_TAGS : List String := ["public", "protected", "notary"]

/-- `JOB_RETRY_CONDITIONS` (`ci/gitlab.py`): the fixed allow-list of retryable
failure categories. -/
def JOB_RETRY_CONDITIONS : List String :=
  ["unknown_failure", "script_failure", "api_failure", "stuck_or_timeout_failure",
   "runner_system_failure", "runner_unsupported", "stale_schedule",
   "archived_failure", "unmet_prerequisites", "scheduler_failure",
   "data_integrity_failure"]

/-- `PipelineType` (`ci/common.py`). -/
inductive PipelineType where
  | COPY_ONLY
  | PROTECTED_BRANCH
  | PULL_REQUEST
deriving DecidableEq, Repr

/-- The errors `generate_gitlab_yaml` can raise: Python's builtin
`AttributeError` (`raise AttributeError` for a job without `script`), and the
engine's own `SpackCIError` (a `spack.error.SpackError`, the one distinct
engine-error type for contract violations). -/
inductive EmitErr where
  | attributeError
  | spackCIError (msg : String)
deriving DecidableEq, Repr

/-- Whether an error belongs to the engine's `SpackCIError`/`SpackError`
hierarchy (a builtin `AttributeError` does not). -/
def isEngineError : EmitErr → Bool
  | .spackCIError _ => true
  | .attributeError => false

/-- Python dict item assignment `d[k] = v` on an `Entries` dict: overwrite in
place if the key exists (keeping its position and original key object),
append at the end otherwise. -/
def setName (es : Entries) (k : String) (v : Yaml) : Entries :=
  if containsName es k then es.map (fun p => if p.1.name = k then (p.1, v) else p)
  else es ++ [(pk k, v)]

/-- Python dict item assignment on the output object. -/
def setOut (out : List (String × Yaml)) (k : String) (v : Yaml) :
    List (String × Yaml) :=
  if out.any (fun p => p.1 = k) then
    out.map (fun p => if p.1 = k then (p.1, v) else p)
  else out ++ [(k, v)]

/-- `ensure_expected_target_path` (`ci/common.py`): exchange Windows path
separators for posix ones. -/
def ensure_expected_target_path (path : String) : String :=
  if path.isEmpty then path else path.replace "\\" "/"

/-- The command transformer of `unpack_script` applied to one command (the
commands are strings; `op` is a literal substring substitution). -/
def applyOp (op : String → String) : Yaml → Yaml
  | .s st => .s (op st)
  | y => y

/-- `unpack_script(script_section, op)` (`ci/common.py`): flatten a flat or
one-level-nested list of commands, applying `op` to each command.  The
emitter only calls it on list-valued script sections; other values are
returned unchanged. -/
def unpack_script (op : String → String) : Yaml → Yaml
  | .seq cmds => .seq (cmds.flatMap (fun cmd =>
      match cmd with
      | .seq subs => subs.map (applyOp op)
      | c => [applyOp op c]))
  | y => y

/-- `job_object.get("tags", [])` as a list (tag lists are YAML sequences). -/
def getTagList (es : Entries) : List Yaml :=
  match lookupName es "tags" with
  | some (.seq xs) => xs
  | _ => []

/-- Python `tag not in SPACK_RESERVED_TAGS` is false exactly for the reserved
string tags. -/
def isReservedTag : Yaml → Bool
  | .s t => SPACK_RESERVED_TAGS.contains t
  | _ => false

/-- `job_object["variables"]` as an entry list (every emitted build job's
attributes carry the variables dict seeded by `__init_job`). -/
def getVarsEntries (es : Entries) : Entries :=
  match lookupName es "variables" with
  | some (.map vs) => vs
  | _ => []

/-- The per-run inputs of the gitlab emission that come from the environment,
the options object and the external spec formatter. -/
structure EmitCtx where
  irJobs : String → Entries
  pipelineType : Option PipelineType
  alreadyBuilt : String → Bool
  jobName : String → String
  deps : String → List String
  mainScriptOp : String → String
  generateJobName : String
  generatePipelineId : String
  relJobLogDir : String
  relJobReproDir : String
  relJobTestDir : String
  relUserArtifactsDir : String

/-- The running state of the emission loop: the output object, the stage
bookkeeping lists and the emitted-job counter. -/
structure EmitState where
  output : List (String × Yaml)
  stages : List (List String)
  stageNames : List String
  jobId : Nat

/-- Lines 189–196 of `generate_gitlab_yaml`: stage bookkeeping performed for
every traversed node, before any per-job check. -/
def stageBook (st : EmitState) (level : Nat) (key : String) : EmitState :=
  let stages := if st.stages.length = level then st.stages ++ [[]] else st.stages
  let stages2 := stages.set level ((stages.getD level []) ++ [key])
  let stageName := "stage-" ++ toString level
  let stageNames := if stageName ∈ st.stageNames then st.stageNames
    else st.stageNames ++ [stageName]
  { st with stages := stages2, stageNames := stageNames }

/-- The reserved-tag policy (`ci/gitlab.py` lines 207–213): on typed
pipelines, strip the reserved tags from the job's tag list and re-add the
one matching the pipeline type. -/
def applyTagPolicy (pipelineType : Option PipelineType) (attrs : Entries) : Entries :=
  if pipelineType.isSome then
    let tags := (getTagList attrs).filter (fun t => ! isReservedTag t)
    let tags := match pipelineType with
      | some .PROTECTED_BRANCH => tags ++ [Yaml.s "protected"]
      | some .PULL_REQUEST => tags ++ [Yaml.s "public"]
      | _ => tags
    setName attrs "tags" (.seq tags)
  else attrs

/-- One iteration of the per-node loop of `generate_gitlab_yaml`
(`ci/gitlab.py` lines 188–275): stage bookkeeping; skip (with a warning) a
node whose IR attributes are empty; apply the reserved-tag policy; raise
`AttributeError` if no `script` is present; rewrite scripts; attach needs,
rebuild flag, artifacts, stage, retry and interruptible; store the job. -/
def generate_node_job (ctx : EmitCtx) (st : EmitState) (level : Nat) (key : String) :
    Except EmitErr EmitState :=
  let st := stageBook st level key
  let stageName := "stage-" ++ toString level
  let attrs := ctx.irJobs key
  if attrs.isEmpty then .ok st
  else
    let attrs := applyTagPolicy ctx.pipelineType attrs
    if ! containsName attrs "script" then .error .attributeError
    else
      let attrs := setName attrs "script"
        (unpack_script ctx.mainScriptOp ((lookupName attrs "script").getD .null))
      let attrs := if containsName attrs "before_script" then
          setName attrs "before_script"
            (unpack_script (fun c => c) ((lookupName attrs "before_script").getD .null))
        else attrs
      let attrs := if containsName attrs "after_script" then
          setName attrs "after_script"
            (unpack_script (fun c => c) ((lookupName attrs "after_script").getD .null))
        else attrs
      let jobNm := ctx.jobName key
      let needs := (ctx.deps key).map (fun dk =>
        Yaml.map [(pk "job", .s (ctx.jobName dk)), (pk "artifacts", .b false)])
      let needs := needs ++ [Yaml.map
        [(pk "job", .s ctx.generateJobName), (pk "pipeline", .s ctx.generatePipelineId)]]
      let attrs := setName attrs "needs" (.seq needs)
      let vars := setName (getVarsEntries attrs) "SPACK_SPEC_NEEDS_REBUILD"
        (.s (if ctx.alreadyBuilt key then "False" else "True"))
      let attrs := setName attrs "variables" (.map vars)
      let attrs := setName attrs "artifacts" (merge_yaml
        ((lookupName attrs "artifacts").getD (.map []))
        (Yaml.map [(pk "when", .s "always"),
          (pk "paths", .seq [.s ctx.relJobLogDir, .s ctx.relJobReproDir,
            .s ctx.relJobTestDir, .s ctx.relUserArtifactsDir])]) false false)
      let attrs := setName attrs "stage" (.s stageName)
      let attrs := setName attrs "retry" (.map [(pk "max", .i 2),
        (pk "when", .seq (JOB_RETRY_CONDITIONS.map Yaml.s))])
      let attrs := setName attrs "interruptible" (.b true)
      .ok { st with output := setOut st.output jobNm (.map attrs),
                    jobId := st.jobId + 1 }

/-- Dict assignment on a plain string-to-string dict. -/
def setStr (vs : List (String × String)) (k v : String) : List (String × String) :=
  if vs.any (fun p => p.1 = k) then
    vs.map (fun p => if p.1 = k then (p.1, v) else p)
  else vs ++ [(k, v)]

/-- `service_job_retries` (`ci/gitlab.py`). -/
def service_job_retries : Yaml :=
  .map [(pk "max", .i 2),
        (pk "when", .seq [.s "runner_system_failure", .s "stuck_or_timeout_failure",
          .s "script_failure"])]

/-- The tail of `generate_gitlab_yaml` (`ci/gitlab.py` lines 279–410, file
output excluded): the per-node loop over the pruned DAG traversal, the
copy-only synthesis job, the signing / rebuild-index / stages / variables
entries when at least one job was emitted, the no-op job otherwise, the
always-run workflow rule, and the final sort of the output object by key.
The environment- and option-derived inputs (`spack_ci_ir` service job
attributes, mirror presence and URLs, the pipeline variables dict, the stack
name) are parameters. -/
def generate_gitlab_yaml_model (ctx : EmitCtx)
    (nodes : List (Nat × String))
    (noopAttrs reindexAttrs signingAttrs copyAttrs : Entries)
    (rebuildIndex hasBuildcacheSource : Bool)
    (buildcacheDestFetch buildcacheDestPush buildcacheSourceFetch : String)
    (pipelineVars : List (String × String)) (stackName : Option String) :
    Except EmitErr (List (String × Yaml)) :=
  let st0 : EmitState := ⟨[], [], [], 0⟩
  let stE : Except EmitErr EmitState :=
    if ctx.pipelineType = some .COPY_ONLY then .ok st0
    else nodes.foldlM (fun st dn => generate_node_job ctx st dn.1 dn.2) st0
  match stE with
  | .error e => .error e
  | .ok st =>
    let copyE : Except EmitErr EmitState :=
      if ctx.pipelineType = some .COPY_ONLY then
        let sync := setName copyAttrs "stage" (.s "copy")
        let sync := setName sync "needs" (.seq [Yaml.map
          [(pk "job", .s ctx.generateJobName), (pk "pipeline", .s ctx.generatePipelineId)]])
        let sync := setName sync "variables" (.map (setName (getVarsEntries sync)
          "SPACK_COPY_ONLY_DESTINATION" (.s buildcacheDestFetch)))
        if ! hasBuildcacheSource then
          .error (.spackCIError "Copy-only pipelines require a mirror named 'buildcache-source'")
        else
          let sync := setName sync "variables" (.map (setName (getVarsEntries sync)
            "SPACK_BUILDCACHE_SOURCE" (.s buildcacheSourceFetch)))
          let sync := setName sync "dependencies" (.seq [])
          .ok { st with stageNames := st.stageNames ++ ["copy"],
                        output := setOut st.output "copy" (.map sync),
                        jobId := st.jobId + 1 }
      else .ok st
    match copyE with
    | .error e => .error e
    | .ok st2 =>
      let assembled :=
        if st2.jobId > 0 then
          let withSign :=
            if containsName signingAttrs "script" &&
                decide (ctx.pipelineType = some .PROTECTED_BRANCH) then
              let sj := setName signingAttrs "script"
                (unpack_script (fun c => c) ((lookupName signingAttrs "script").getD .null))
              let sj := setName sj "stage" (.s "stage-sign-pkgs")
              let sj := setName sj "when" (.s "always")
              let sj := setName sj "retry" (.map [(pk "max", .i 2),
                (pk "when", .seq [.s "always"])])
              let sj := setName sj "interruptible" (.b true)
              let sj := setName sj "variables" (.map (setName (getVarsEntries sj)
                "SPACK_BUILDCACHE_DESTINATION" (.s buildcacheDestPush)))
              let sj := setName sj "dependencies" (.seq [])
              (st2.stageNames ++ ["stage-sign-pkgs"], setOut st2.output "sign-pkgs" (.map sj))
            else (st2.stageNames, st2.output)
          let withReindex :=
            if rebuildIndex then
              let fj := setName reindexAttrs "stage" (.s "stage-rebuild-index")
              let fj := setName fj "script" (unpack_script
                (fun cmd => cmd.replace "{index_target_mirror}" buildcacheDestPush)
                ((lookupName fj "script").getD .null))
              let fj := setName fj "when" (.s "always")
              let fj := setName fj "retry" service_job_retries
              let fj := setName fj "interruptible" (.b true)
              let fj := setName fj "dependencies" (.seq [])
              (withSign.1 ++ ["stage-rebuild-index"], setOut withSign.2 "rebuild-index" (.map fj))
            else withSign
          let out := setOut withReindex.2 "stages" (.seq (withReindex.1.map Yaml.s))
          let vars := match stackName with
            | some s => setStr pipelineVars "SPACK_CI_STACK_NAME" s
            | none => pipelineVars
          setOut out "variables"
            (.map (vars.map (fun p => (pk p.1, .s (ensure_expected_target_path p.2)))))
        else
          let noop := setName noopAttrs "retry" (.i 0)
          let noop := setName noop "allow_failure" (.b true)
          [("no-specs-to-rebuild", Yaml.map noop)]
      let withWorkflow := setOut assembled "workflow"
        (.map [(pk "rules", .seq [.map [(pk "when", .s "always")]])])
      .ok (withWorkflow.insertionSort (fun a b => strLe a.1 b.1))

/-- The errors the dynamic-mapping section of `generate_ir` can raise: the
`assert` on conflicting require/ignore keys (an `AssertionError`), and an
uncaught exception propagating out of the per-job body (e.g. `json.load` on
a malformed response). -/
inductive PyErr where
  | assertionError
  | exception (msg : String)
deriving DecidableEq, Repr

/-- A pipeline job as `generate_ir` holds it: `{"spec": ..., "attributes":
...}`; the Python pseudo-jobs carry the falsy spec `""`, modelled as
`none`. -/
structure CIJob where
  spec : Option String
  attributes : Yaml

/-- One entry of a `dynamic-mapping` section (`ci/common.py` lines 714–742).
The request header, SSL-verification flag and timeout only parameterise the
external opener and are folded into the `urlopen` argument below. -/
structure DynMapping where
  name : Option String
  endpoint : String
  require : List String
  allow : List String
  ignore : List String

/-- `sorted(set(l))` on a list of strings. -/
def dedupSort (l : List String) : List String :=
  l.dedup.insertionSort (fun a b => strLe a b)

/-- Whether the section is skipped: `re.match(SPACK_CI_SKIP_DYNAMIC_MAPPING,
dynmap_name)` when both the named section and the environment pattern exist. -/
def dynSkipped (skipPattern : Option (String → Bool)) (name : Option String) : Bool :=
  match name, skipPattern with
  | some n, some f => f n
  | _, _ => false

/-- One variable of the job's `attributes["variables"]` dict, as read by
`job_query`'s `format_map` (every job is seeded with the six spec variables
by `__init_job`, so the lookup is total in practice). -/
def jobVar (attrs : Yaml) (v : String) : String :=
  match attrs with
  | .map es =>
    match lookupName es "variables" with
    | some (.map vs) =>
      match lookupName vs v with
      | some (.s st) => st
      | _ => ""
    | _ => ""
  | _ => ""

/-- `job_query(job)` (`ci/common.py` lines 751–761): the spec query string,
percent-encoded by the external `quote`. -/
def job_query (quote : String → String) (job : CIJob) : String :=
  "spec=" ++ quote
    (jobVar job.attributes "SPACK_JOB_SPEC_PKG_NAME" ++ "@" ++
     jobVar job.attributes "SPACK_JOB_SPEC_PKG_VERSION" ++ " " ++
     jobVar job.attributes "SPACK_JOB_SPEC_VARIANTS" ++ " arch=" ++
     jobVar job.attributes "SPACK_JOB_SPEC_ARCH" ++ "%" ++
     jobVar job.attributes "SPACK_JOB_SPEC_COMPILER_NAME" ++ "@" ++
     jobVar job.attributes "SPACK_JOB_SPEC_COMPILER_VERSION")

/-- `config.pop(key)` for each ignored key present (endpoint responses are
JSON objects). -/
def stripIgnored (ignored : List String) (config : Yaml) : Yaml :=
  match config with
  | .map es => .map (es.filter (fun p => ! ignored.contains p.1.name))
  | y => y

/-- The `clean_config` filter: keep the allowed keys (in allow-list order,
as the Python loop inserts them), or everything when no allow list is
given. -/
def keepAllowed (allowed : List String) (config : Yaml) : Yaml :=
  match config with
  | .map es =>
    if allowed.isEmpty then .map es
    else .map (allowed.filterMap (fun k => (lookupName es k).map (fun v => (pk k, v))))
  | y => y

/-- Python truthiness of a YAML/JSON value (`if clean_config:`). -/
def yamlTruthy : Yaml → Bool
  | .null => false
  | .b b => b
  | .i i => i != 0
  | .s st => ! st.isEmpty
  | .seq xs => ! xs.isEmpty
  | .map es => ! es.isEmpty

/-- The per-job loop of the dynamic-mapping section (`ci/common.py` lines
763–814).  `urlopen endpoint query` is `_dyn_mapping_urlopener` on the
assembled request (URL assembly by `urllib` is external); only it stands
inside the `try`.  `jsonLoad` is `json.load` over the decoded response and
runs outside the `try`: its failure propagates.  Returns the trace of
issued requests and either the updated job list or the propagated error. -/
def dynJobsLoop (urlopen : String → String → Except String String)
    (jsonLoad : String → Except String Yaml) (quote : String → String)
    (endpoint : String) (allowed ignored required : List String) :
    List CIJob → List (String × String) × Except PyErr (List CIJob)
  | [] => ([], .ok [])
  | job :: rest =>
    match job.spec with
    | none =>
      let r := dynJobsLoop urlopen jsonLoad quote endpoint allowed ignored required rest
      (r.1, r.2.map (fun js => job :: js))
    | some _ =>
      let query := job_query quote job
      match urlopen endpoint query with
      | .error _ =>
        -- caught: tty.warn twice, continue with the next job
        let r := dynJobsLoop urlopen jsonLoad quote endpoint allowed ignored required rest
        ((endpoint, query) :: r.1, r.2.map (fun js => job :: js))
      | .ok resp =>
        match jsonLoad resp with
        | .error msg => ([(endpoint, query)], .error (.exception msg))
        | .ok config =>
          let config := stripIgnored ignored config
          let cleanConfig := keepAllowed allowed config
          -- missing required keys only produce a tty.warn, no state change
          let job2 := if yamlTruthy cleanConfig then
              { job with attributes := merge_yaml job.attributes cleanConfig false false }
            else job
          let r := dynJobsLoop urlopen jsonLoad quote endpoint allowed ignored required rest
          ((endpoint, query) :: r.1, r.2.map (fun js => job2 :: js))

/-- The dynamic-mapping branch of `generate_ir` (`ci/common.py` lines
713–814): skip check, key-list normalisation, the require/ignore `assert`,
then the per-job loop. -/
def process_dynamic_mapping
    (urlopen : String → String → Except String String)
    (jsonLoad : String → Except String Yaml)
    (quote : String → String)
    (skipPattern : Option (String → Bool))
    (mapping : DynMapping) (jobs : List CIJob) :
    List (String × String) × Except PyErr (List CIJob) :=
  if dynSkipped skipPattern mapping.name then ([], .ok jobs)
  else
    let allowed := dedupSort (mapping.allow ++ mapping.require)
    let ignored := dedupSort mapping.ignore
    let required := dedupSort mapping.require
    if ignored.any (fun ikey => required.contains ikey) then ([], .error .assertionError)
    else dynJobsLoop urlopen jsonLoad quote mapping.endpoint allowed ignored required jobs

theorem mem_dedupSort (l : List String) (x : String) : x ∈ dedupSort l ↔ x ∈ l := by
  unfold dedupSort
  rw [(List.perm_insertionSort _ _).mem_iff, List.mem_dedup]

theorem contains_eq_mem_str (l : List String) (x : String) :
    l.contains x = true ↔ x ∈ l := by
  induction l with
  | nil => simp
  | cons a t ih => simp [List.contains, List.elem_cons]

/-- C8.  For every dynamic-mapping section that is not skipped and in which
some key appears in both the `require` and the `ignore` list, the section's
processing fails with the `assert`'s `AssertionError` at section-processing
time, with an empty request trace: no HTTP request is issued for any job. -/
theorem dynmapping_require_ignore_conflict
    (urlopen : String → String → Except String String)
    (jsonLoad : String → Except String Yaml) (quote : String → String)
    (skipPattern : Option (String → Bool)) (mapping : DynMapping)
    (jobs : List CIJob) (x : String)
    (hskip : dynSkipped skipPattern mapping.name = false)
    (hr : x ∈ mapping.require) (hi : x ∈ mapping.ignore) :
    process_dynamic_mapping urlopen jsonLoad quote skipPattern mapping jobs
      = ([], Except.error PyErr.assertionError) := by
  have hig : x ∈ dedupSort mapping.ignore := (mem_dedupSort _ _).mpr hi
  have hreq : (dedupSort mapping.require).contains x = true :=
    (contains_eq_mem_str _ _).mpr ((mem_dedupSort _ _).mpr hr)
  have hany : (dedupSort mapping.ignore).any
      (fun ikey => (dedupSort mapping.require).contains ikey) = true :=
    List.any_eq_true.mpr ⟨x, hig, hreq⟩
  simp only [process_dynamic_mapping, hskip, hany, Bool.false_eq_true, if_false, if_true]

/-- A conflicting section: `require = ["x"]`, `ignore = ["x"]`. -/
def dynMapConflict : DynMapping := ⟨some "m", "https://ep.example", ["x"], [], ["x"]⟩

theorem dynmapping_require_ignore_conflict_witness :
    dynSkipped none dynMapConflict.name = false ∧
    "x" ∈ dynMapConflict.require ∧ "x" ∈ dynMapConflict.ignore ∧
    process_dynamic_mapping (fun _ _ => Except.error "refused")
      (fun _ => Except.error "bad") (fun s => s) none dynMapConflict
      [⟨some "pkg", Yaml.map []⟩]
      = ([], Except.error PyErr.assertionError) :=
  ⟨rfl, by decide, by decide,
   dynmapping_require_ignore_conflict _ _ _ _ _ _ "x" rfl (by decide) (by decide)⟩

/-- An unrestricted dynamic-mapping section (no require/allow/ignore). -/
def dynMapWide : DynMapping := ⟨some "gantry", "https://ep.example", [], [], []⟩

/-- A job with a real spec. -/
def dynJobReal : CIJob :=
  ⟨some "zlib",
   Yaml.map [(pk "variables", .map [(pk "SPACK_JOB_SPEC_PKG_NAME", .s "zlib")])]⟩

/-- C7 counterexample: with two real-spec jobs, an endpoint GET that
succeeds and a response body `json.load` cannot parse, the first job's
`json.load` failure propagates out of the loop — the run is aborted with
that exception, the second job is never looked up (one request in the
trace), contradicting the claim that a failure of the lookup (GET and
consumption of the response) only skips the affected job. -/
theorem dynmapping_parse_abort_counterexample :
    process_dynamic_mapping (fun _ _ => Except.ok "not json")
      (fun _ => Except.error "Expecting value") (fun s => s) none dynMapWide
      [dynJobReal, dynJobReal]
      = ([("https://ep.example", job_query (fun s => s) dynJobReal)],
         Except.error (PyErr.exception "Expecting value")) := rfl

theorem dynJobsLoop_ok (urlopen : String → String → Except String String)
    (jsonLoad : String → Except String Yaml) (quote : String → String)
    (endpoint : String) (allowed ignored required : List String)
    (hjson : ∀ r, ∃ y, jsonLoad r = Except.ok y) (jobs : List CIJob) :
    ∃ tr jobs2,
      dynJobsLoop urlopen jsonLoad quote endpoint allowed ignored required jobs
        = (tr, Except.ok jobs2) ∧
      List.Forall₂ (fun j j2 : CIJob =>
        (j.spec = none → j2 = j) ∧
        (∀ e, urlopen endpoint (job_query quote j) = Except.error e → j2 = j))
        jobs jobs2 := by
  induction jobs with
  | nil => exact ⟨[], [], rfl, List.Forall₂.nil⟩
  | cons job rest ih =>
    obtain ⟨tr, js2, heq, hf⟩ := ih
    cases hspec : job.spec with
    | none =>
      refine ⟨tr, job :: js2, ?_, ?_⟩
      · simp [dynJobsLoop, hspec, heq, Except.map]
      · exact List.Forall₂.cons ⟨fun _ => rfl, fun _ _ => rfl⟩ hf
    | some s =>
      cases hopen : urlopen endpoint (job_query quote job) with
      | error e =>
        refine ⟨(endpoint, job_query quote job) :: tr, job :: js2, ?_, ?_⟩
        · simp [dynJobsLoop, hspec, hopen, heq, Except.map]
        · exact List.Forall₂.cons ⟨fun _ => rfl, fun _ _ => rfl⟩ hf
      | ok resp =>
        obtain ⟨y, hy⟩ := hjson resp
        refine ⟨(endpoint, job_query quote job) :: tr,
          (if yamlTruthy (keepAllowed allowed (stripIgnored ignored y)) then
            { job with attributes := (merge_yaml job.attributes
                (keepAllowed allowed (stripIgnored ignored y)) false false) }
          else job) :: js2, ?_, ?_⟩
        · simp [dynJobsLoop, hspec, hopen, hy, heq, Except.map]
        · refine List.Forall₂.cons ⟨fun hn => ?_, fun e he => ?_⟩ hf
          · rw [hspec] at hn; exact absurd hn (by simp)
          · rw [hopen] at he; exact absurd he (by simp)

/-- C7 (amended).  When the response bodies are all parseable (`json.load`
total) and the section has no require/ignore conflict, a failure of the
per-job endpoint GET alone never aborts the run: the section returns
normally, and every job whose GET failed (and every spec-less job) passes
through unchanged.  Only the GET stands inside the `try`; a failure
consuming the response (`json.load`) propagates and aborts the run. -/
theorem dynmapping_get_failure_isolated
    (urlopen : String → String → Except String String)
    (jsonLoad : String → Except String Yaml) (quote : String → String)
    (skipPattern : Option (String → Bool)) (mapping : DynMapping)
    (jobs : List CIJob)
    (hjson : ∀ r, ∃ y, jsonLoad r = Except.ok y)
    (hconf : ∀ x, x ∈ mapping.require → x ∉ mapping.ignore) :
    ∃ tr jobs2,
      process_dynamic_mapping urlopen jsonLoad quote skipPattern mapping jobs
        = (tr, Except.ok jobs2) ∧
      List.Forall₂ (fun j j2 : CIJob =>
        (j.spec = none → j2 = j) ∧
        (∀ e, urlopen mapping.endpoint (job_query quote j) = Except.error e → j2 = j))
        jobs jobs2 := by
  cases hskip : dynSkipped skipPattern mapping.name with
  | true =>
    refine ⟨[], jobs, ?_, ?_⟩
    · simp only [process_dynamic_mapping, hskip, if_true]
    · exact List.forall₂_same.mpr (fun j _ => ⟨fun _ => rfl, fun _ _ => rfl⟩)
  | false =>
    have hany : (dedupSort mapping.ignore).any
        (fun ikey => (dedupSort mapping.require).contains ikey) = false := by
      rw [← Bool.not_eq_true, List.any_eq_true]
      rintro ⟨x, hx, hc⟩
      exact hconf x ((mem_dedupSort _ _).mp ((contains_eq_mem_str _ _).mp hc))
        ((mem_dedupSort _ _).mp hx)
    obtain ⟨tr, js2, heq, hf⟩ := dynJobsLoop_ok urlopen jsonLoad quote mapping.endpoint
      (dedupSort (mapping.allow ++ mapping.require)) (dedupSort mapping.ignore)
      (dedupSort mapping.require) hjson jobs
    refine ⟨tr, js2, ?_, hf⟩
    simp only [process_dynamic_mapping, hskip, hany, Bool.false_eq_true, if_false, heq]

/-- An unrestricted, unnamed dynamic-mapping section. -/
def dynMapOpen : DynMapping := ⟨none, "https://ep.example", [], [], []⟩

theorem dynmapping_get_failure_isolated_witness :
    (∀ x, x ∈ dynMapOpen.require → x ∉ dynMapOpen.ignore) ∧
    ∃ tr jobs2,
      process_dynamic_mapping (fun _ _ => Except.error "refused")
        (fun _ => Except.ok (Yaml.map [])) (fun s => s) none dynMapOpen [dynJobReal]
        = (tr, Except.ok jobs2) ∧
      List.Forall₂ (fun j j2 : CIJob =>
        (j.spec = none → j2 = j) ∧
        (∀ e, (fun _ _ => Except.error "refused" : String → String → Except String String)
            dynMapOpen.endpoint (job_query (fun s => s) j) = Except.error e → j2 = j))
        [dynJobReal] jobs2 :=
  ⟨fun x hx => absurd hx (List.not_mem_nil x),
   dynmapping_get_failure_isolated _ _ _ _ _ _ (fun _ => ⟨Yaml.map [], rfl⟩)
     (fun x hx => absurd hx (List.not_mem_nil x))⟩

theorem containsName_setName_ne (es : Entries) (k k' : String) (v : Yaml)
    (h : k ≠ k') : containsName (setName es k v) k' = containsName es k' := by
  unfold setName
  by_cases hc : containsName es k
  · rw [if_pos hc]
    clear hc
    unfold containsName
    induction es with
    | nil => rfl
    | cons p t ih =>
      simp only [List.map_cons, List.any_cons, ih]
      by_cases hpk : p.1.name = k <;> simp [hpk]
  · rw [if_neg hc]
    unfold containsName
    rw [List.any_append]
    simp [pk, h]

theorem containsName_applyTagPolicy (pt : Option PipelineType) (attrs : Entries)
    (k : String) (h : k ≠ "tags") :
    containsName (applyTagPolicy pt attrs) k = containsName attrs k := by
  unfold applyTagPolicy
  split
  · exact containsName_setName_ne _ _ _ _ (fun hk => h hk.symm)
  · rfl

/-- C10.  In the emission loop, a node whose IR attributes map is entirely
empty is skipped after the stage bookkeeping, with no error and no
contribution to the output object or the job counter; and the loop body
fails (always with the builtin `AttributeError`) exactly for nodes whose
attributes map is non-empty but carries no `script` key. -/
theorem emit_empty_attrs_skipped (ctx : EmitCtx) (st : EmitState) (level : Nat)
    (key : String) :
    ((ctx.irJobs key).isEmpty = true →
      generate_node_job ctx st level key = Except.ok (stageBook st level key) ∧
      (stageBook st level key).output = st.output ∧
      (stageBook st level key).jobId = st.jobId) ∧
    (∀ e, generate_node_job ctx st level key = Except.error e ↔
      ((ctx.irJobs key).isEmpty = false ∧
       containsName (ctx.irJobs key) "script" = false ∧ e = EmitErr.attributeError)) := by
  constructor
  · intro h
    exact ⟨by simp [generate_node_job, h], rfl, rfl⟩
  · intro e
    have hts : containsName (applyTagPolicy ctx.pipelineType (ctx.irJobs key)) "script"
        = containsName (ctx.irJobs key) "script" :=
      containsName_applyTagPolicy _ _ _ (by decide)
    constructor
    · intro he
      by_cases h1 : (ctx.irJobs key).isEmpty
      · simp [generate_node_job, h1] at he
      · by_cases h2 : containsName (ctx.irJobs key) "script"
        · rw [generate_node_job] at he
          simp only [h1, Bool.false_eq_true, if_false, hts, h2, Bool.not_true] at he
          simp at he
        · rw [generate_node_job] at he
          simp only [h1, Bool.false_eq_true, if_false, hts,
            Bool.eq_false_iff.mpr h2, Bool.not_false, if_true] at he
          exact ⟨Bool.eq_false_iff.mpr h1, Bool.eq_false_iff.mpr h2,
            (Except.error.injEq _ _).mp he.symm⟩
    · rintro ⟨h1, h2, rfl⟩
      rw [generate_node_job]
      simp only [h1, Bool.false_eq_true, if_false, hts, h2, Bool.not_false, if_true]

/-- A context whose IR resolves every key to an empty attributes map. -/
def emitCtxEmpty : EmitCtx :=
  ⟨fun _ => [], none, fun _ => false, fun k => k, fun _ => [], fun c => c,
   "generate", "1", "logs", "repro", "tests", "user"⟩

theorem emit_empty_attrs_skipped_witness :
    (emitCtxEmpty.irJobs "k").isEmpty = true ∧
    generate_node_job emitCtxEmpty ⟨[], [], [], 0⟩ 0 "k"
      = Except.ok (stageBook ⟨[], [], [], 0⟩ 0 "k") :=
  ⟨rfl, ((emit_empty_attrs_skipped emitCtxEmpty ⟨[], [], [], 0⟩ 0 "k").1 rfl).1⟩

/-- A context whose IR resolves every key to a non-empty attributes map
without a `script` key. -/
def emitCtxNoScript : EmitCtx :=
  ⟨fun _ => [(pk "tags", Yaml.seq [Yaml.s "x86_64"])], some .PULL_REQUEST,
   fun _ => false, fun k => k, fun _ => [], fun c => c,
   "generate", "1", "logs", "repro", "tests", "user"⟩

/-- C6 counterexample: a surviving node with non-empty IR attributes and no
`script` key makes the emission loop raise Python's builtin
`AttributeError` (`raise AttributeError`, `ci/gitlab.py` line 216), which
is not the engine's `SpackCIError` type: the fatal condition does not
surface as the engine's one distinct error type. -/
theorem missing_script_error_type_counterexample :
    generate_node_job emitCtxNoScript ⟨[], [], [], 0⟩ 0 "k"
      = Except.error EmitErr.attributeError ∧
    isEngineError EmitErr.attributeError = false := ⟨rfl, rfl⟩

/-- C6 (amended).  For every surviving node whose resolved IR attributes
are non-empty but contain no `script` key, the emission loop raises a fatal
error; the error is the Python builtin `AttributeError`, which is not the
engine's distinct `SpackCIError` error type (used elsewhere, e.g. for the
missing `buildcache-source` mirror). -/
theorem emit_missing_script_attribute_error (ctx : EmitCtx) (st : EmitState)
    (level : Nat) (key : String)
    (hne : (ctx.irJobs key).isEmpty = false)
    (hns : containsName (ctx.irJobs key) "script" = false) :
    generate_node_job ctx st level key = Except.error EmitErr.attributeError ∧
    isEngineError EmitErr.attributeError = false := by
  refine ⟨?_, rfl⟩
  have hts : containsName (applyTagPolicy ctx.pipelineType (ctx.irJobs key)) "script"
      = containsName (ctx.irJobs key) "script" :=
    containsName_applyTagPolicy _ _ _ (by decide)
  rw [generate_node_job]
  simp only [hne, Bool.false_eq_true, if_false, hts, hns, Bool.not_false, if_true]

theorem emit_missing_script_attribute_error_witness :
    (emitCtxNoScript.irJobs "k").isEmpty = false ∧
    containsName (emitCtxNoScript.irJobs "k") "script" = false ∧
    (generate_node_job emitCtxNoScript ⟨[], [], [], 0⟩ 0 "k"
        = Except.error EmitErr.attributeError ∧
     isEngineError EmitErr.attributeError = false) :=
  ⟨rfl, rfl, emit_missing_script_attribute_error emitCtxNoScript ⟨[], [], [], 0⟩ 0 "k" rfl rfl⟩

/-- C9.  For every run that is not copy-only and in which zero build jobs
survive pruning (an empty traversal), the generator raises no error and the
emitted document holds exactly two entries in sorted order: the synthetic
`no-specs-to-rebuild` job — the no-op attributes with `retry` forced to `0`
and `allow_failure` set to `true` — and the always-run `workflow` rule. -/
theorem emit_empty_graph_noop (ctx : EmitCtx)
    (noopAttrs reindexAttrs signingAttrs copyAttrs : Entries)
    (rebuildIndex hasBuildcacheSource : Bool)
    (bf bp bs : String) (pipelineVars : List (String × String))
    (stackName : Option String)
    (hct : ctx.pipelineType ≠ some PipelineType.COPY_ONLY) :
    generate_gitlab_yaml_model ctx [] noopAttrs reindexAttrs signingAttrs copyAttrs
      rebuildIndex hasBuildcacheSource bf bp bs pipelineVars stackName
      = Except.ok
          [("no-specs-to-rebuild", Yaml.map
             (setName (setName noopAttrs "retry" (Yaml.i 0)) "allow_failure" (Yaml.b true))),
           ("workflow", Yaml.map
             [(pk "rules", Yaml.seq [Yaml.map [(pk "when", Yaml.s "always")]])])] := by
  have hle : strLe "no-specs-to-rebuild" "workflow" = true := by decide
  simp [generate_gitlab_yaml_model, hct, setOut, List.insertionSort, List.orderedInsert,
    hle, List.foldlM, pure, Except.pure]

/-- A non-copy-only context for the empty-graph run. -/
def emitCtxNoop : EmitCtx :=
  ⟨fun _ => [], none, fun _ => false, fun k => k, fun _ => [], fun c => c,
   "generate", "1", "logs", "repro", "tests", "user"⟩

theorem emit_empty_graph_noop_witness :
    emitCtxNoop.pipelineType ≠ some PipelineType.COPY_ONLY ∧
    generate_gitlab_yaml_model emitCtxNoop [] [(pk "tags", Yaml.seq [])] [] [] []
      false false "" "" "" [] none
      = Except.ok
          [("no-specs-to-rebuild", Yaml.map
             (setName (setName [(pk "tags", Yaml.seq [])] "retry" (Yaml.i 0))
               "allow_failure" (Yaml.b true))),
           ("workflow", Yaml.map
             [(pk "rules", Yaml.seq [Yaml.map [(pk "when", Yaml.s "always")]])])] :=
  ⟨by decide,
   emit_empty_graph_noop emitCtxNoop [(pk "tags", Yaml.seq [])] [] [] [] false false
     "" "" "" [] none (by decide)⟩
